import Mathlib

/-!
# TruthTracer — verification of the scraping pipeline and its helpers

A shallow embedding, in Lean 4, of the parts of the `truthtracer` repository
that the specification's claims talk about:

* `src/utils/text_utils.py` — `normalise_url`, `extract_domain`;
* `src/scraping/domain_rules.py` — `DomainRules.is_blocked`;
* `src/utils/date_utils.py` — `calculate_search_date_params`;
* `src/scraping/pipeline.py` — `PipelineStage.execute` and
  `ScrapingPipeline` (stage list, processors, `scrape`);
* `src/google/google.py` — `GoogleSearchScraper._extract_results` and
  `_should_skip_url`;
* `src/processing/metadata_extractor.py` — `MetadataExtractor.extract_metadata`
  and the per-field tier guards.

Python strings are modelled as `String` / `List Char`; Python's truthiness on
strings, lists and dictionaries is made explicit at each use site.  Effectful
calls (HTTP fetches, the browser, the content extractor, spaCy) are modelled
as fields of an explicit environment record, and an event trace records the
externally visible actions (fetches, browser initialisation and teardown,
`time.sleep`).
-/

namespace TruthTracer

/-! ## Character-level helpers mirroring Python string methods -/

/-- Python `s.split(c, 1)`: the characters before the first occurrence of `c`,
together with the characters after it (`none` when `c` does not occur, which
also encodes Python's `c in s` test). -/
def splitFirst (c : Char) : List Char → List Char × Option (List Char)
  | [] => ([], none)
  | x :: xs =>
    if x = c then ([], some xs)
    else
      let r := splitFirst c xs
      (x :: r.1, r.2)

/-- Python `s.split(c)` (split on every occurrence; `"".split(c) == [""]`). -/
def splitAll (c : Char) : List Char → List (List Char)
  | [] => [[]]
  | x :: xs =>
    if x = c then [] :: splitAll c xs
    else (x :: (splitAll c xs).headI) :: (splitAll c xs).tail

/-- Python `c.join(parts)` for a single-character separator. -/
def joinSep (c : Char) : List (List Char) → List Char
  | [] => []
  | [p] => p
  | p :: ps => p ++ c :: joinSep c ps

/-- Python `needle in hay` on strings (contiguous substring test). -/
def containsSub (needle : List Char) : List Char → Bool
  | [] => needle.isEmpty
  | x :: xs => needle.isPrefixOf (x :: xs) || containsSub needle xs

/-- Substring test on `String`s, mirroring Python's `in` operator. -/
def containsStr (needle hay : String) : Bool :=
  containsSub needle.data hay.data

/-- Python `s.lower()` (character-wise lower-casing). -/
def lowerStr (s : String) : String :=
  String.mk (s.data.map Char.toLower)

/-- Python `s.startswith(p)`. -/
def startsWithStr (s p : String) : Bool :=
  p.data.isPrefixOf s.data

/-! ## `src/utils/text_utils.py` -/

/-- The tracking-parameter names removed by `normalise_url`
(`text_utils.py`, lines 28–31). -/
def tracking_params : List (List Char) :=
  ["utm_source", "utm_medium", "utm_campaign", "utm_term", "utm_content",
   "fbclid", "gclid", "ref", "ref_src", "ref_url", "source", "source_id"].map String.data

/-- One iteration of the parameter filter in `normalise_url`: a parameter is
kept when it has no `=`, or when the lower-cased name before the first `=` is
not a tracking-parameter name (`text_utils.py`, lines 39–45). -/
def keepParam (p : List Char) : Bool :=
  match splitFirst '=' p with
  | (_, none) => true
  | (name, some _) => !(tracking_params.contains (name.map Char.toLower))

/-- The query-rewriting step of `normalise_url` (`text_utils.py`, lines
33–50): split at the first `?`, drop tracking parameters, re-join with `&`,
and drop the `?` entirely when no parameter survives. -/
def filterQueryChars (l : List Char) : List Char :=
  match (splitFirst '?' l).2 with
  | none => l
  | some query =>
    let base := (splitFirst '?' l).1
    let kept := (splitAll '&' query).filter keepParam
    if kept.isEmpty then base else base ++ '?' :: joinSep '&' kept

/-- The trailing-slash step of `normalise_url` (`text_utils.py`, lines 52–54):
remove one trailing `/` when present. -/
def stripSlashChars (l : List Char) : List Char :=
  if l.getLast? = some '/' then l.dropLast else l

/-- `normalise_url` on character lists: drop the fragment (everything from
the first `#`), filter tracking parameters out of the query, and strip one
trailing slash. -/
def normaliseChars (l : List Char) : List Char :=
  stripSlashChars (filterQueryChars (l.takeWhile (fun c => c ≠ '#')))

/-- `text_utils.normalise_url` (lines 11–56).  The empty string is Python's
only falsy string, so the `if not url` guard is an equality test with `""`. -/
def normalise_url (url : String) : String :=
  if url = "" then "" else String.mk (normaliseChars url.data)

/-- Characters that may appear in a URL scheme, per CPython's
`urllib.parse` (`scheme_chars`). -/
def isSchemeChar (c : Char) : Bool :=
  c.isAlpha || c.isDigit || c = '+' || c = '-' || c = '.'

/-- The `netloc` of `urllib.parse.urlparse`: strip a leading `scheme:` when
the text before the first `:` is a well-formed scheme, then, when the rest
begins with `//`, take the characters up to the next `/`, `?` or `#`. -/
def netlocOf (url : String) : String :=
  let l := url.data
  let body :=
    match splitFirst ':' l with
    | (pre, some rest) =>
      if pre ≠ [] ∧ pre.headI.isAlpha ∧ pre.all isSchemeChar then rest else l
    | (_, none) => l
  match body with
  | '/' :: '/' :: t =>
    String.mk (t.takeWhile (fun c => c ≠ '/' ∧ c ≠ '?' ∧ c ≠ '#'))
  | _ => ""

/-- `text_utils.extract_domain` (lines 58–78) with the default
`remove_www = True`: lower-cased `netloc` with a leading `www.` removed. -/
def extract_domain (url : String) : String :=
  if url = "" then ""
  else
    let domain := lowerStr (netlocOf url)
    if startsWithStr domain "www." then String.mk (domain.data.drop 4) else domain

/-! ## `src/scraping/domain_rules.py` -/

/-- `DomainRules.BLOCKED_DOMAINS` (lines 8–12). -/
def BLOCKED_DOMAINS : List String := ["msn.com", "msnbc.com", "telegraph.co.uk"]

/-- `DomainRules.is_blocked` (lines 14–17): Python's
`any(blocked in domain for blocked in cls.BLOCKED_DOMAINS)` — a substring
test, not a suffix test. -/
def is_blocked (domain : String) : Bool :=
  BLOCKED_DOMAINS.any (fun blocked => containsStr blocked domain)

/-! ## `src/utils/date_utils.py`

Dates are modelled as day counts in the proleptic Gregorian calendar
(days since 0000-03-01), converted to and from `year/month/day` with the
standard civil-calendar algorithms.  All dates that occur in the program lie
far after the epoch, so `Nat` arithmetic is exact. -/

/-- Day count of a Gregorian calendar date (days since 0000-03-01);
valid for `y ≥ 1`. -/
def daysFromCivil (y m d : Nat) : Nat :=
  let y' := if m ≤ 2 then y - 1 else y
  let era := y' / 400
  let yoe := y' % 400
  let mp := (m + 9) % 12
  let doy := (153 * mp + 2) / 5 + d - 1
  let doe := yoe * 365 + yoe / 4 - yoe / 100 + doy
  era * 146097 + doe

/-- Inverse of `daysFromCivil`: the `(year, month, day)` of a day count. -/
def civilFromDays (z : Nat) : Nat × Nat × Nat :=
  let era := z / 146097
  let doe := z % 146097
  let yoe := (doe - doe / 1460 + doe / 36524 - doe / 146096) / 365
  let y := yoe + era * 400
  let doy := doe - (365 * yoe + yoe / 4 - yoe / 100)
  let mp := (5 * doy + 2) / 153
  let d := doy - (153 * mp + 2) / 5 + 1
  let m := if mp < 10 then mp + 3 else mp - 9
  (if m ≤ 2 then y + 1 else y, m, d)

/-- Python's `f"{date.month}/{date.day}/{date.year}"` formatting used in
`calculate_search_date_params` (`date_utils.py`, lines 236–237). -/
def formatDateMDY (z : Nat) : String :=
  let c := civilFromDays z
  toString c.2.1 ++ "/" ++ toString c.2.2 ++ "/" ++ toString c.1

/-- `date_utils.calculate_search_date_params` (lines 201–252), returning the
value stored under the dictionary's single `tbs` key.  Two effectful inputs
of the source are passed explicitly: `article_date` stands for the result of
`parse_article_date(publish_date)` (`none` when the publish date is absent or
unparseable), and `now` for `datetime.now()` at midnight resolution, so that
`(now - article_date).days` is the exact day difference. -/
def calculate_search_date_params (article_date : Option Nat) (now : Nat)
    (days_old : Int) : String :=
  match article_date with
  | some ad =>
    let days_since_publication : Int := (now : Int) - (ad : Int)
    if days_since_publication ≤ 7 then
      "cdr:1,cd_min:" ++ formatDateMDY (now - 14) ++ ",cd_max:" ++ formatDateMDY (now + 1)
    else
      "cdr:1,cd_min:" ++ formatDateMDY (ad - 14) ++ ",cd_max:" ++ formatDateMDY (ad + 30)
  | none =>
    if days_old ≤ 1 then "qdr:w"
    else if days_old ≤ 7 then "qdr:m1"
    else if days_old ≤ 31 then "qdr:m3"
    else "qdr:y"

/-! ## `src/scraping/pipeline.py`

The pipeline threads a mutable context dictionary through a fixed list of
stages.  Parsed pages (`BeautifulSoup` values) are modelled as their HTML
text, a `String`; Python's truthiness on them (`if not soup`) is the test
against `""`, matching `BeautifulSoup("")` being falsy.  The external
collaborators (static fetch, browser fetch, content extractor, metadata
extractor, text cleaner) are fields of an `Env` record, and every externally
visible action is logged to a trace of `Event`s. -/

/-- Externally visible actions of one pipeline run.  `sleep` records the
argument of `time.sleep` in `PipelineStage.execute`. -/
inductive Event
  | staticFetch
  | dynInit
  | dynFetch
  | dynCleanup
  | sleep (secs : Nat)
deriving DecidableEq, Repr

/-- The `content` dictionary built by the extraction stages (the
`ScrapedContent` record of the spec). -/
structure Content where
  url : String := ""
  domain : String := ""
  headline : String := ""
  author : String := ""
  publishDate : String := ""
  text : String := ""
  links : List String := []
deriving DecidableEq, Repr

/-- A stage's returned summary dictionary, stored under the stage's name in
`context['results']`. -/
inductive StageResult
  | domainBlocked (domain : String)
  | domainOk (domain : String)
  | staticSuccess (html_size : Nat)
  | staticNeedsJs
  | dynSkipped
  | dynSuccess (html_size : Nat)
  | extraction (text_length links_count : Nat)
  | metadata (headline author publishDate : Bool)
  | cleaning (original_length cleaned_length : Nat)
  | validationFail
  | validationOk (text_length : Nat) (has_headline has_author has_date : Bool)
deriving DecidableEq, Repr

/-- The pipeline context dictionary (`scrape`, lines 536–540, plus every key
written by a stage).  Missing keys read through `context.get(key, default)`
are represented by the corresponding default. -/
structure Ctx where
  url : String
  domain : String := ""
  blocked : Bool := false
  skip_remaining_stages : Bool := false
  soup : String := ""
  requires_dynamic : Bool := false
  static_failed : Bool := false
  dynamic_skipped : Bool := false
  dynamic_failed : Bool := false
  content : Option Content := none
  validated : Bool := false
  results : List (String × StageResult) := []
deriving DecidableEq, Repr

/-- The browser handle held by a `DynamicScraper`: `driver = true` is a live
`ChromiumPage`, `driver = false` is the `None` left behind by
`DynamicScraper.cleanup` (`dynamic.py`, lines 114–126). -/
structure DynScraper where
  driver : Bool
deriving DecidableEq, Repr

/-- The lazily initialised components of a `ScrapingPipeline`
(`pipeline.py`, lines 138–148): `none` is the `_dynamic_scraper = None`
state in which the `dynamic_scraper` property builds a fresh scraper. -/
structure PState where
  dynScraper : Option DynScraper := none
deriving DecidableEq, Repr

/-- Outcomes of the external collaborators, fixed for the duration of a run.
`static_result` is `StaticScraper.get_page_content` (first component `""`
models both a `None` soup and an empty parse, which Python treats alike via
truthiness); `meaningful` is `ContentValidator.has_meaningful_content`;
`dynamic_html` is the HTML a live browser fetch returns;
`extract_content` is `ContentExtractor.extract_content` (`none` for a falsy
result); `extract_metadata` is `MetadataExtractor.extract_metadata` as a
function from the prior content dictionary (`none` when the key is absent)
to the updated one; the `clean_*` fields are the `TextCleaner` methods. -/
structure Env where
  static_result : String × Bool
  meaningful : String → Bool
  dynamic_html : String
  extract_content : String → String → Option Content
  extract_metadata : String → String → Option Content → Content
  clean_text : String → String
  clean_author : String → String
  clean_date : String → String

/-- Result of one processor invocation: the updated pipeline components and
context, the returned summary (`Except.error` models a raised exception,
`Except.ok none` a `None` return), and the emitted events. -/
structure ProcOut where
  ps : PState
  ctx : Ctx
  result : Except Unit (Option StageResult)
  trace : List Event
deriving Repr

/-- `ScrapingPipeline._process_domain_analysis` (lines 224–249). -/
def process_domain_analysis (ps : PState) (ctx : Ctx) : ProcOut :=
  let domain := extract_domain ctx.url
  let ctx := { ctx with domain := domain }
  if is_blocked domain then
    ⟨ps, { ctx with blocked := true, skip_remaining_stages := true },
      .ok (some (.domainBlocked domain)), []⟩
  else
    ⟨ps, ctx, .ok (some (.domainOk domain)), []⟩

/-- `ScrapingPipeline._process_static_scraping` (lines 253–290). -/
def process_static_scraping (env : Env) (ps : PState) (ctx : Ctx) : ProcOut :=
  let soup := env.static_result.1
  let requires_js := env.static_result.2
  if soup ≠ "" then
    let ctx := { ctx with soup := soup }
    if env.meaningful soup then
      ⟨ps, ctx, .ok (some (.staticSuccess soup.length)), [.staticFetch]⟩
    else if requires_js then
      ⟨ps, { ctx with requires_dynamic := true, static_failed := true },
        .ok (some .staticNeedsJs), [.staticFetch]⟩
    else
      ⟨ps, ctx, .ok (some (.staticSuccess soup.length)), [.staticFetch]⟩
  else
    ⟨ps, { ctx with static_failed := true, requires_dynamic := true },
      .error (), [.staticFetch]⟩

/-- `ScrapingPipeline._handle_static_scraping_error` (lines 292–311):
always marks `static_failed` and reports the error handled. -/
def handle_static_scraping_error (ps : PState) (ctx : Ctx) :
    PState × Ctx × Bool :=
  (ps, { ctx with static_failed := true }, true)

/-- The `dynamic_scraper` lazy property (lines 142–148): reuse the stored
scraper when one exists — even one whose browser has been torn down — and
build a fresh live one only when the stored reference is `None`. -/
def dynamic_scraper_prop (ps : PState) : PState × DynScraper × List Event :=
  match ps.dynScraper with
  | some scr => (ps, scr, [])
  | none => ({ ps with dynScraper := some ⟨true⟩ }, ⟨true⟩, [.dynInit])

/-- `DynamicScraper.get_page_content` (`dynamic.py`, lines 70–112) as seen
from the pipeline: with a live driver it performs a browser fetch and
returns the rendered HTML; with a torn-down driver (`driver = None`) the
`self.driver.get` attribute access raises before any fetch, and the
exception handler's `BeautifulSoup("")` fallback yields an empty (falsy)
soup. -/
def dyn_get_page_content (env : Env) (scr : DynScraper) : String × List Event :=
  if scr.driver then (env.dynamic_html, [.dynFetch]) else ("", [])

/-- `ScrapingPipeline._process_dynamic_scraping` (lines 313–352). -/
def process_dynamic_scraping (env : Env) (ps : PState) (ctx : Ctx) : ProcOut :=
  if ¬ ctx.static_failed then
    ⟨ps, { ctx with dynamic_skipped := true }, .ok (some .dynSkipped), []⟩
  else
    let p := dynamic_scraper_prop ps
    let g := dyn_get_page_content env p.2.1
    let cleaned : PState := { p.1 with dynScraper := some ⟨false⟩ }
    if g.1 = "" then
      ⟨cleaned, { ctx with dynamic_failed := true }, .error (),
        p.2.2 ++ g.2 ++ [.dynCleanup]⟩
    else
      ⟨cleaned, { ctx with soup := g.1 },
        .ok (some (.dynSuccess g.1.length)), p.2.2 ++ g.2 ++ [.dynCleanup]⟩

/-- `ScrapingPipeline._handle_dynamic_scraping_error` (lines 354–372):
declines to handle the error. -/
def handle_dynamic_scraping_error (ps : PState) (ctx : Ctx) :
    PState × Ctx × Bool :=
  (ps, ctx, false)

/-- `ScrapingPipeline._process_content_extraction` (lines 374–408). -/
def process_content_extraction (env : Env) (ps : PState) (ctx : Ctx) : ProcOut :=
  if ctx.soup = "" then ⟨ps, ctx, .error (), []⟩
  else
    match env.extract_content ctx.soup ctx.url with
    | none => ⟨ps, ctx, .error (), []⟩
    | some content =>
      ⟨ps, { ctx with content := some content },
        .ok (some (.extraction content.text.length content.links.length)), []⟩

/-- `ScrapingPipeline._process_metadata_extraction` (lines 410–439). -/
def process_metadata_extraction (env : Env) (ps : PState) (ctx : Ctx) : ProcOut :=
  if ctx.soup = "" then ⟨ps, ctx, .error (), []⟩
  else
    let content := env.extract_metadata ctx.soup ctx.url ctx.content
    ⟨ps, { ctx with content := some content },
      .ok (some (.metadata (content.headline ≠ "") (content.author ≠ "")
        (content.publishDate ≠ ""))), []⟩

/-- `ScrapingPipeline._process_content_cleaning` (lines 441–482). -/
def process_content_cleaning (env : Env) (ps : PState) (ctx : Ctx) : ProcOut :=
  match ctx.content with
  | none => ⟨ps, ctx, .error (), []⟩
  | some c =>
    let c1 := if c.text ≠ "" then { c with text := env.clean_text c.text } else c
    let c2 := if c1.author ≠ "" then { c1 with author := env.clean_author c1.author } else c1
    let c3 := if c2.publishDate ≠ "" then
        { c2 with publishDate := env.clean_date c2.publishDate } else c2
    ⟨ps, { ctx with content := some c3 },
      .ok (some (.cleaning c.text.length c3.text.length)), []⟩

/-- `ScrapingPipeline._process_content_validation` (lines 484–521): never
raises; sets `validated` according to the presence of content, warning (but
not failing) on a missing headline. -/
def process_content_validation (ps : PState) (ctx : Ctx) : ProcOut :=
  match ctx.content with
  | none =>
    ⟨ps, { ctx with validated := false }, .ok (some .validationFail), []⟩
  | some c =>
    ⟨ps, { ctx with validated := true },
      .ok (some (.validationOk c.text.length (c.headline ≠ "") (c.author ≠ "")
        (c.publishDate ≠ ""))), []⟩

/-- `PipelineStage` (`pipeline.py`, lines 18–46): `retry_delay` is mutable
instance state, updated in place by `execute`. -/
structure Stage where
  name : String
  processor : PState → Ctx → ProcOut
  error_handler : Option (PState → Ctx → PState × Ctx × Bool) := none
  retry_attempts : Nat := 1
  retry_delay : Nat := 2

/-- Result of `PipelineStage.execute`: the stage itself (whose `retry_delay`
may have been escalated), the updated pipeline components and context, the
boolean returned, and the emitted events. -/
structure ExecOut where
  stage : Stage
  ps : PState
  ctx : Ctx
  ok : Bool
  trace : List Event

/-- "Try error handler if available" (`execute`, lines 84–91): run the
stage's handler when one is set; without a handler the error counts as
unhandled. -/
def runHandler (eh : Option (PState → Ctx → PState × Ctx × Bool))
    (ps : PState) (ctx : Ctx) : PState × Ctx × Bool :=
  match eh with
  | some handler => handler ps ctx
  | none => (ps, ctx, false)

/-- The retry loop of `PipelineStage.execute` (lines 59–103).  `budget` is
the number of retries still allowed (`retry_attempts - attempt`); on each
raised failure the error handler (if any) runs, then, when budget remains,
the stage sleeps for `delay` and doubles it capped at 30 (line 98). -/
def executeLoop (proc : PState → Ctx → ProcOut)
    (eh : Option (PState → Ctx → PState × Ctx × Bool)) (name : String) :
    Nat → Nat → PState → Ctx → PState × Ctx × Bool × List Event × Nat
  | budget, delay, ps, ctx =>
    let out := proc ps ctx
    match out.result with
    | .ok res =>
      let ctx' := match res with
        | some r => { out.ctx with results := out.ctx.results ++ [(name, r)] }
        | none => out.ctx
      (out.ps, ctx', true, out.trace, delay)
    | .error _ =>
      let h := runHandler eh out.ps out.ctx
      if h.2.2 then (h.1, h.2.1, true, out.trace, delay)
      else
        match budget with
        | 0 => (h.1, h.2.1, false, out.trace, delay)
        | b + 1 =>
          let next := executeLoop proc eh name b (min (delay * 2) 30) h.1 h.2.1
          (next.1, next.2.1, next.2.2.1,
            out.trace ++ [.sleep delay] ++ next.2.2.2.1, next.2.2.2.2)

/-- `PipelineStage.execute` (lines 48–103), including the in-place update of
`self.retry_delay`. -/
def Stage.execute (st : Stage) (ps : PState) (ctx : Ctx) : ExecOut :=
  let r := executeLoop st.processor st.error_handler st.name
    st.retry_attempts st.retry_delay ps ctx
  ⟨{ st with retry_delay := r.2.2.2.2 }, r.1, r.2.1, r.2.2.1, r.2.2.2.1⟩

/-- Stage 1 of `_define_pipeline` (lines 170–175). -/
def stDomain : Stage :=
  { name := "domain_analysis", processor := process_domain_analysis,
    retry_attempts := 0 }

/-- Stage 2 of `_define_pipeline` (lines 177–183). -/
def stStatic (env : Env) (max_retries : Nat) : Stage :=
  { name := "static_scraping", processor := process_static_scraping env,
    error_handler := some handle_static_scraping_error,
    retry_attempts := min 1 max_retries }

/-- Stage 3 of `_define_pipeline` (lines 185–192). -/
def stDynamic (env : Env) (max_retries : Nat) : Stage :=
  { name := "dynamic_scraping", processor := process_dynamic_scraping env,
    error_handler := some handle_dynamic_scraping_error,
    retry_attempts := min 2 max_retries, retry_delay := 3 }

/-- Stage 4 of `_define_pipeline` (lines 194–199). -/
def stExtract (env : Env) (max_retries : Nat) : Stage :=
  { name := "content_extraction", processor := process_content_extraction env,
    retry_attempts := min 1 max_retries }

/-- Stage 5 of `_define_pipeline` (lines 201–206). -/
def stMeta (env : Env) : Stage :=
  { name := "metadata_extraction", processor := process_metadata_extraction env,
    retry_attempts := 1 }

/-- Stage 6 of `_define_pipeline` (lines 208–213). -/
def stClean (env : Env) : Stage :=
  { name := "content_cleaning", processor := process_content_cleaning env,
    retry_attempts := 0 }

/-- Stage 7 of `_define_pipeline` (lines 215–220). -/
def stValidate : Stage :=
  { name := "content_validation", processor := process_content_validation,
    retry_attempts := 0 }

/-- `ScrapingPipeline._define_pipeline` (lines 167–220) for a pipeline
constructed with the given `max_retries`. -/
def definePipeline (env : Env) (max_retries : Nat) : List Stage :=
  [stDomain, stStatic env max_retries, stDynamic env max_retries,
   stExtract env max_retries, stMeta env, stClean env, stValidate]

/-- A `ScrapingPipeline` object: its stage list (built once, in `__init__`)
and its lazily initialised components. -/
structure Pipeline where
  stages : List Stage
  pstate : PState := {}

/-- `ScrapingPipeline.__init__` (lines 112–140) with the default
`max_retries = 3`. -/
def mkPipeline (env : Env) (max_retries : Nat := 3) : Pipeline :=
  { stages := definePipeline env max_retries }

/-- Result of the stage loop in `ScrapingPipeline.scrape` (lines 542–554):
the stage list afterwards (stages mutate their own `retry_delay`), the
pipeline components and context, whether some stage failed (making `scrape`
return `None` at once), and the emitted events. -/
structure RunOut where
  stages : List Stage
  ps : PState
  ctx : Ctx
  failed : Bool
  trace : List Event

/-- The stage loop of `ScrapingPipeline.scrape` (lines 543–554): before each
stage, stop when `skip_remaining_stages` is set; run the stage; on failure
abandon the run. -/
def runStages : List Stage → PState → Ctx → RunOut
  | [], ps, ctx => ⟨[], ps, ctx, false, []⟩
  | st :: rest, ps, ctx =>
    if ctx.skip_remaining_stages then ⟨st :: rest, ps, ctx, false, []⟩
    else
      let e := st.execute ps ctx
      if e.ok then
        let r := runStages rest e.ps e.ctx
        ⟨e.stage :: r.stages, r.ps, r.ctx, r.failed, e.trace ++ r.trace⟩
      else
        ⟨e.stage :: rest, e.ps, e.ctx, true, e.trace⟩

/-- The stage loop applied to a fresh context for `url`. -/
def scrapeRun (pl : Pipeline) (url : String) : RunOut :=
  runStages pl.stages pl.pstate { url := url }

/-- Result of `ScrapingPipeline.scrape`: the returned value and the pipeline
object as it is left for the next call. -/
structure ScrapeOut where
  result : Option Content
  pipeline : Pipeline
  trace : List Event

/-- `ScrapingPipeline.scrape` (lines 523–565): run the stages; on stage
failure return `None`; otherwise return `context['content']` exactly when
`context['validated']` is truthy, else `None`. -/
def scrape (pl : Pipeline) (url : String) : ScrapeOut :=
  let r := scrapeRun pl url
  let res := if r.failed then none
    else if r.ctx.validated then r.ctx.content else none
  ⟨res, ⟨r.stages, r.ps⟩, r.trace⟩

/-! ## `src/google/google.py` — search result extraction

`_extract_results` walks the DOM nodes that carry a `data-news-cluster-id`
attribute.  A candidate item is modelled by the data the loop body reads
from it: its anchor elements (each with a `ping`-attribute flag, an optional
`href` and an optional `link.string`, already stripped) and the stripped
text of its `role="heading"` element, when one exists.  Query strings are
modelled undecoded (no percent- or plus-unquoting). -/

/-- An anchor element inside a news item (`_extract_results`,
lines 394–408).  `text` is `link.string` (`none` when Python's attribute
is `None`), already `.strip()`-ed. -/
structure GLink where
  has_ping : Bool
  href : Option String
  text : Option String := none
deriving DecidableEq, Repr

/-- One `div[data-news-cluster-id]` search-result container.  `heading` is
the stripped text of its `role="heading"` element, when present. -/
structure NewsItem where
  links : List GLink
  heading : Option String := none
deriving DecidableEq, Repr

/-- A returned search result (`{'url': ..., 'title': ...}`). -/
structure SearchResult where
  url : String
  title : String
deriving DecidableEq, Repr

/-- `urllib.parse.urlparse(url).query`: strip the fragment (first `#`),
then take what follows the first `?`. -/
def queryOf (url : String) : List Char :=
  match (splitFirst '?' (splitFirst '#' url.data).1).2 with
  | some q => q
  | none => []

/-- `urllib.parse.parse_qs(query)[key][0]` as used by
`extract_url_from_redirect`: the first `key=value` pair of the `&`-separated
query whose value is nonempty (`parse_qs` drops blank values by default).
Percent-decoding is not modelled. -/
def parseQsFirst (query : List Char) (key : String) : Option String :=
  ((splitAll '&' query).filterMap (fun p =>
      match splitFirst '=' p with
      | (n, some v) => if v ≠ [] then some (n, v) else none
      | (_, none) => none)).lookup key.data |>.map String.mk

/-- `text_utils.extract_url_from_redirect` (lines 80–107): unwrap a Google
redirect URL, preferring its `url` parameter, then its `q` parameter. -/
def extract_url_from_redirect (redirect_url : String) : String :=
  if redirect_url = "" then ""
  else if startsWithStr redirect_url "/url?" || containsStr "google.com/url" redirect_url then
    match parseQsFirst (queryOf redirect_url) "url" with
    | some u => u
    | none =>
      match parseQsFirst (queryOf redirect_url) "q" with
      | some u => u
      | none => redirect_url
  else redirect_url

/-- The blacklist of `_should_skip_url` (`google.py`, lines 513–516). -/
def blacklisted_domains : List String :=
  ["youtube.com", "facebook.com", "twitter.com", "instagram.com",
   "policies.google.com"]

/-- The original-article data computed by `_get_original_url_info`
(lines 466–486). -/
structure OrigInfo where
  domain : String
  normalised_url : String
deriving DecidableEq, Repr

/-- `GoogleSearchScraper._get_original_url_info` (lines 466–486): `none`
when no original URL was provided (Python's falsiness of `None` and `""`). -/
def get_original_url_info (original_url : String) : Option OrigInfo :=
  if original_url = "" then none
  else some ⟨extract_domain original_url, normalise_url original_url⟩

/-- `GoogleSearchScraper._should_skip_url` (lines 488–522): skip an exact
repeat of an already processed URL, the original article itself under
normalised comparison, and any URL containing a blacklisted domain. -/
def should_skip_url (url : String) (info : Option OrigInfo)
    (processed_urls : List String) : Bool :=
  if processed_urls.contains url then true
  else if (match info with
      | some i => decide (normalise_url url = i.normalised_url)
      | none => false) then true
  else blacklisted_domains.any (fun d => containsStr d (lowerStr url))

/-- The per-item loop of `_extract_results` (lines 388–459), carrying the
set of processed URLs and the accumulated results.  The loop returns early
once `len(results) >= num_results` (line 454). -/
def extract_results_aux (info : Option OrigInfo) (original_domain : Option String)
    (num_results : Nat) :
    List NewsItem → List String → List SearchResult → List SearchResult
  | [], _, results => results
  | item :: rest, processed_urls, results =>
    match item.links.find? (fun a => a.href.isSome && a.has_ping) with
    | none => extract_results_aux info original_domain num_results rest processed_urls results
    | some link =>
      let url0 := link.href.getD ""
      let url := if startsWithStr url0 "/url?" || containsStr "google.com/url" url0 then
          extract_url_from_redirect url0 else url0
      if ¬ startsWithStr url "http" then
        extract_results_aux info original_domain num_results rest processed_urls results
      else if should_skip_url url info processed_urls then
        extract_results_aux info original_domain num_results rest processed_urls results
      else if (match original_domain with
          | some od => od ≠ "" && extract_domain url = od
          | none => false) then
        extract_results_aux info original_domain num_results rest processed_urls results
      else
        let title0 := (item.heading).getD ""
        let title := if title0 = "" then (link.text).getD "" else title0
        let results' := results ++ [⟨url, title⟩]
        if results'.length ≥ num_results then results'
        else extract_results_aux info original_domain num_results rest
          (processed_urls ++ [url]) results'

/-- `GoogleSearchScraper._extract_results` (lines 356–464) on the list of
news-item containers found in the soup. -/
def extract_results (items : List NewsItem) (original_url : String)
    (num_results : Nat) : List SearchResult :=
  let info := get_original_url_info original_url
  let original_domain := info.map (fun i => i.domain)
  extract_results_aux info original_domain num_results items [] []

/-! ## `src/processing/metadata_extractor.py`

Only the tier orchestration of `extract_metadata` and the per-field guards
are code under verification here; the DOM and NER queries each strategy
performs are external lookups, modelled as oracle fields of the document:
each field holds the value the corresponding strategy block would assign
before returning (`none` when that block falls through to the next one).
The content dictionary's fields are `Option String`s: `none` is an absent
key, `some ""` an empty value — both falsy, but distinguished by the
`if field not in content` initialisation. -/

/-- The parsed document as seen by `MetadataExtractor`: one oracle field per
numbered strategy block of `_extract_headline` (blocks 1–6),
`_extract_author` (blocks 1–5) and `_extract_publication_date` (blocks 1–5),
plus the text `_extract_text_for_ner` collects and the values the three
`_extract_*_with_ner` helpers would find in it. -/
structure MDoc where
  headline_schema : Option String := none
  headline_meta : Option String := none
  headline_selector : Option String := none
  headline_h1 : Option String := none
  headline_header : Option String := none
  headline_title : Option String := none
  author_schema : Option String := none
  author_meta : Option String := none
  author_selector : Option String := none
  author_regex : Option String := none
  author_attribution : Option String := none
  date_schema : Option String := none
  date_meta : Option String := none
  date_time_elem : Option String := none
  date_selector : Option String := none
  date_regex : Option String := none
  ner_text : String := ""
  ner_headline : Option String := none
  ner_author : Option String := none
  ner_date : Option String := none
deriving DecidableEq, Repr

/-- The content dictionary `extract_metadata` receives and mutates. -/
structure MContent where
  url : Option String := none
  domain : Option String := none
  headline : Option String := none
  author : Option String := none
  publishDate : Option String := none
deriving DecidableEq, Repr

/-- Python truthiness of `content.get(field)`: present and nonempty. -/
def mtruthy : Option String → Bool
  | some s => s ≠ ""
  | none => false

/-- First strategy block that produces a value (each `return` inside the
per-field extractors). -/
def firstSome (l : List (Option String)) : Option String :=
  l.findSome? id

/-- `MetadataExtractor._extract_headline` (lines 135–203): skip when a
truthy headline is already present, else take the first strategy's value. -/
def m_extract_headline (doc : MDoc) (c : MContent) : MContent :=
  if mtruthy c.headline then c
  else
    match firstSome [doc.headline_schema, doc.headline_meta,
        doc.headline_selector, doc.headline_h1, doc.headline_header,
        doc.headline_title] with
    | some h => { c with headline := some h }
    | none => c

/-- `MetadataExtractor._extract_author` (lines 205–320). -/
def m_extract_author (doc : MDoc) (c : MContent) : MContent :=
  if mtruthy c.author then c
  else
    match firstSome [doc.author_schema, doc.author_meta, doc.author_selector,
        doc.author_regex, doc.author_attribution] with
    | some a => { c with author := some a }
    | none => c

/-- `MetadataExtractor._extract_publication_date` (lines 322–414). -/
def m_extract_publication_date (doc : MDoc) (c : MContent) : MContent :=
  if mtruthy c.publishDate then c
  else
    match firstSome [doc.date_schema, doc.date_meta, doc.date_time_elem,
        doc.date_selector, doc.date_regex] with
    | some d => { c with publishDate := some d }
    | none => c

/-- The field initialisation of `extract_metadata` (lines 70–84): fill in
`url` and `domain` when the keys are absent, then give every missing
metadata field the empty string. -/
def m_init (url : String) (c : MContent) : MContent :=
  let c1 := if c.url.isSome then c else { c with url := some url }
  let c2 := if c1.domain.isSome then c1
    else { c1 with domain := some (extract_domain url) }
  let c3 := if c2.headline.isSome then c2 else { c2 with headline := some "" }
  let c4 := if c3.author.isSome then c3 else { c3 with author := some "" }
  if c4.publishDate.isSome then c4 else { c4 with publishDate := some "" }

/-- The NER fallback tier of `extract_metadata` (lines 91–116): computed
only for the fields left falsy by the HTML tiers, and only when the NER text
is nonempty and the NLP model loaded (`nlp_ok`).  `_extract_date_with_ner`
re-checks that no date has been found before writing (line 590). -/
def m_ner_tier (doc : MDoc) (nlp_ok : Bool) (c : MContent) : MContent :=
  let missing_headline := ¬ mtruthy c.headline
  let missing_author := ¬ mtruthy c.author
  let missing_date := ¬ mtruthy c.publishDate
  if missing_headline ∨ missing_author ∨ missing_date then
    if doc.ner_text ≠ "" ∧ nlp_ok then
      let c1 := if missing_headline then
          (match doc.ner_headline with
           | some h => { c with headline := some h }
           | none => c) else c
      let c2 := if missing_author then
          (match doc.ner_author with
           | some a => { c1 with author := some a }
           | none => c1) else c1
      if missing_date then
          (match doc.ner_date with
           | some d => if ¬ mtruthy c2.publishDate then
               { c2 with publishDate := some d } else c2
           | none => c2) else c2
    else c
  else c

/-- `MetadataExtractor.extract_metadata` (lines 58–117): initialise missing
fields, run the HTML tier per field, then run the NER fallback tier for the
fields still empty. -/
def extract_metadata (doc : MDoc) (url : String) (content : Option MContent)
    (nlp_ok : Bool) : MContent :=
  m_ner_tier doc nlp_ok
    (m_extract_publication_date doc
      (m_extract_author doc
        (m_extract_headline doc
          (m_init url (content.getD {})))))

/-! ## Derived observations used in the statements -/

/-- The durations of the `time.sleep` calls recorded in a trace. -/
def sleepsOf (tr : List Event) : List Nat :=
  tr.filterMap (fun e => match e with | .sleep n => some n | _ => none)

/-- The delay escalation of `PipelineStage.execute`, line 98:
`self.retry_delay = min(self.retry_delay * 2, 30)`. -/
def doubleCap (d : Nat) : Nat := min (d * 2) 30

/-- The sleep durations an always-failing, never-handled stage performs:
`budget` retries starting from delay `d`, each subsequent delay doubled and
capped at 30. -/
def sleepsSpec : Nat → Nat → List Nat
  | 0, _ => []
  | b + 1, d => d :: sleepsSpec b (doubleCap d)

/-- The `retry_delay` left behind by an always-failing, never-handled stage. -/
def delaySpec : Nat → Nat → Nat
  | 0, d => d
  | b + 1, d => delaySpec b (doubleCap d)

/-- The `&`-separated query parameters of a character-level URL (the text
after its first `?`), for stating which parameters survive normalisation. -/
def queryParamsChars (l : List Char) : List (List Char) :=
  match (splitFirst '?' l).2 with
  | some q => splitAll '&' q
  | none => []

/-- The `&`-separated query parameters of a URL. -/
def queryParamsOf (url : String) : List (List Char) :=
  queryParamsChars url.data

/-- The filter properties `_extract_results` enforces on every result it
returns, relative to the computed original-URL info and original domain:
no blacklisted domain occurs in the lower-cased URL, the normalised URL
differs from the original article's, and (when an original domain is known
and nonempty) the URL's domain differs from it. -/
def goodResult (info : Option OrigInfo) (od : Option String)
    (r : SearchResult) : Prop :=
  blacklisted_domains.any (fun d => containsStr d (lowerStr r.url)) = false
  ∧ (∀ i, info = some i → normalise_url r.url ≠ i.normalised_url)
  ∧ (∀ d, od = some d → d ≠ "" → extract_domain r.url ≠ d)

/-! ## Concrete instances used in witnesses and counterexamples -/

/-- A stage processor that raises on every attempt and performs no
externally visible action. -/
def alwaysRaise : PState → Ctx → ProcOut :=
  fun ps c => ⟨ps, c, .error (), []⟩

/-- A stage configured with `retry_delay = 2` and `retry_attempts = 3`, no
error handler, whose processor always raises. -/
def failingStage : Stage :=
  { name := "always_fails", processor := alwaysRaise, error_handler := none,
    retry_attempts := 3, retry_delay := 2 }

/-- Environment in which the static fetch returns no content and the
browser renders an empty page, so both scraping stages fail. -/
def envAllFail : Env :=
  { static_result := ("", false), meaningful := fun _ => false,
    dynamic_html := "", extract_content := fun _ _ => none,
    extract_metadata := fun _ _ c => c.getD {}, clean_text := id,
    clean_author := id, clean_date := id }

/-- Environment in which the static fetch returns a page judged meaningful,
so no browser work is ever needed. -/
def envStaticOk : Env :=
  { static_result := ("<p>body</p>", false), meaningful := fun _ => true,
    dynamic_html := "", extract_content := fun _ _ => none,
    extract_metadata := fun _ _ c => c.getD {}, clean_text := id,
    clean_author := id, clean_date := id }

/-- Environment in which the static fetch fails but the browser renders a
page and the extraction stages produce a validated record. -/
def envDynOk : Env :=
  { static_result := ("", false), meaningful := fun _ => false,
    dynamic_html := "<html><p>story body</p></html>",
    extract_content := fun _ u => some { url := u, text := "story body" },
    extract_metadata := fun _ _ c => { c.getD {} with headline := "H" },
    clean_text := id, clean_author := id, clean_date := id }

/-! # Theorems -/

/-! ## Substring search -/

/-- `containsSub` decides the contiguous-substring relation, i.e. Python's
`in` operator on strings. -/
theorem containsSub_iff_infix (n h : List Char) :
    containsSub n h = true ↔ n <:+: h := by
  induction h with
  | nil => simp [containsSub, List.isEmpty_iff, List.infix_nil]
  | cons x xs ih =>
    simp [containsSub, Bool.or_eq_true, ih, List.isPrefixOf_iff_prefix,
      List.infix_cons_iff]

/-! ## Generic facts about `PipelineStage.execute` and the stage loop -/

/-- `sleepsOf` distributes over trace concatenation. -/
theorem sleepsOf_append (a b : List Event) :
    sleepsOf (a ++ b) = sleepsOf a ++ sleepsOf b := by
  simp [sleepsOf]

/-- A successful processor attempt ends the retry loop at once, appending
the returned summary to `context['results']`. -/
theorem executeLoop_ok {proc : PState → Ctx → ProcOut} {ps : PState} {ctx : Ctx}
    {r : StageResult} (eh : Option (PState → Ctx → PState × Ctx × Bool))
    (name : String) (budget delay : Nat)
    (hres : (proc ps ctx).result = .ok (some r)) :
    executeLoop proc eh name budget delay ps ctx =
      ((proc ps ctx).ps,
        { (proc ps ctx).ctx with results := (proc ps ctx).ctx.results ++ [(name, r)] },
        true, (proc ps ctx).trace, delay) := by
  rw [executeLoop.eq_def]
  simp only [hres]

/-- A raised failure whose error handler reports "handled" ends the retry
loop at once, successfully and without storing a summary. -/
theorem executeLoop_handled {proc : PState → Ctx → ProcOut}
    {h : PState → Ctx → PState × Ctx × Bool} {ps : PState} {ctx : Ctx}
    (name : String) (budget delay : Nat)
    (hres : (proc ps ctx).result = .error ())
    (hh : (h (proc ps ctx).ps (proc ps ctx).ctx).2.2 = true) :
    executeLoop proc (some h) name budget delay ps ctx =
      ((h (proc ps ctx).ps (proc ps ctx).ctx).1,
        (h (proc ps ctx).ps (proc ps ctx).ctx).2.1, true, (proc ps ctx).trace, delay) := by
  rw [executeLoop.eq_def]
  simp only [hres, runHandler, hh, if_true]

/-- The retry loop of a stage whose processor always raises, never sleeps on
its own, and whose error handler (if any) never reports "handled": the loop
fails, sleeps exactly per `sleepsSpec` (the configured delay, then doubled
and capped at 30 each retry) and leaves the delay at `delaySpec`. -/
theorem executeLoop_always_fails {proc : PState → Ctx → ProcOut}
    {eh : Option (PState → Ctx → PState × Ctx × Bool)} (name : String)
    (hfail : ∀ ps c, (proc ps c).result = .error ())
    (hnosleep : ∀ ps c, sleepsOf (proc ps c).trace = [])
    (hhandled : ∀ ps c, (runHandler eh ps c).2.2 = false) :
    ∀ budget delay : Nat, ∀ ps : PState, ∀ ctx : Ctx,
      (executeLoop proc eh name budget delay ps ctx).2.2.1 = false
      ∧ sleepsOf (executeLoop proc eh name budget delay ps ctx).2.2.2.1
          = sleepsSpec budget delay
      ∧ (executeLoop proc eh name budget delay ps ctx).2.2.2.2
          = delaySpec budget delay := by
  intro budget
  induction budget with
  | zero =>
    intro delay ps ctx
    rw [executeLoop.eq_def]
    simp [hfail ps ctx, hhandled, sleepsSpec, delaySpec, hnosleep ps ctx]
  | succ b ih =>
    intro delay ps ctx
    rw [executeLoop.eq_def]
    simp only [hfail ps ctx, hhandled, Bool.false_eq_true, if_false]
    refine ⟨(ih _ _ _).1, ?_, (ih _ _ _).2.2⟩
    rw [sleepsOf_append, sleepsOf_append, hnosleep ps ctx, List.nil_append]
    rw [(ih _ _ _).2.1]
    rfl

/-- A processor that returns a summary without raising makes `execute`
succeed on the first attempt, appending the summary to `context['results']`. -/
theorem Stage.execute_ok {st : Stage} {ps : PState} {ctx : Ctx} {r : StageResult}
    (hres : (st.processor ps ctx).result = .ok (some r)) :
    st.execute ps ctx =
      ⟨st, (st.processor ps ctx).ps,
        { (st.processor ps ctx).ctx with results :=
            (st.processor ps ctx).ctx.results ++ [(st.name, r)] },
        true, (st.processor ps ctx).trace⟩ := by
  simp only [Stage.execute,
    executeLoop_ok st.error_handler st.name st.retry_attempts st.retry_delay hres]

/-- The stage loop on an empty stage list. -/
theorem runStages_nil (ps : PState) (ctx : Ctx) :
    runStages [] ps ctx = ⟨[], ps, ctx, false, []⟩ := rfl

/-- The stage loop leaves everything untouched once `skip_remaining_stages`
is set. -/
theorem runStages_skip_all {stages : List Stage} {ps : PState} {ctx : Ctx}
    (h : ctx.skip_remaining_stages = true) :
    runStages stages ps ctx = ⟨stages, ps, ctx, false, []⟩ := by
  cases stages with
  | nil => rfl
  | cons st rest => simp only [runStages, h, if_true]

/-- The stage loop across one successfully executed stage. -/
theorem runStages_cons_run {st : Stage} {rest : List Stage} {ps : PState}
    {ctx : Ctx} {e : ExecOut} (h : ctx.skip_remaining_stages = false)
    (he : st.execute ps ctx = e) (hok : e.ok = true) :
    runStages (st :: rest) ps ctx =
      ⟨e.stage :: (runStages rest e.ps e.ctx).stages,
        (runStages rest e.ps e.ctx).ps, (runStages rest e.ps e.ctx).ctx,
        (runStages rest e.ps e.ctx).failed,
        e.trace ++ (runStages rest e.ps e.ctx).trace⟩ := by
  simp only [runStages, h, Bool.false_eq_true, if_false, he, hok, if_true]

/-- The stage loop across a failing stage: the pipeline stops and fails. -/
theorem runStages_cons_fail {st : Stage} {rest : List Stage} {ps : PState}
    {ctx : Ctx} {e : ExecOut} (h : ctx.skip_remaining_stages = false)
    (he : st.execute ps ctx = e) (hok : e.ok = false) :
    runStages (st :: rest) ps ctx = ⟨e.stage :: rest, e.ps, e.ctx, true, e.trace⟩ := by
  simp only [runStages, h, Bool.false_eq_true, if_false, he, hok]

/-! ## Frame lemmas for the stage processors -/

/-- `_process_domain_analysis` passes the components through, never touches
`validated`, `static_failed` or `results`, and emits no events. -/
theorem pd_frame (ps : PState) (ctx : Ctx) :
    (process_domain_analysis ps ctx).ps = ps
    ∧ (process_domain_analysis ps ctx).ctx.validated = ctx.validated
    ∧ (process_domain_analysis ps ctx).ctx.static_failed = ctx.static_failed
    ∧ (process_domain_analysis ps ctx).ctx.results = ctx.results
    ∧ (process_domain_analysis ps ctx).trace = [] := by
  simp only [process_domain_analysis]
  split <;> exact ⟨rfl, rfl, rfl, rfl, rfl⟩

/-- `_process_static_scraping` passes the components through, never touches
`validated` or `results`, and emits exactly one static fetch. -/
theorem ps_frame (env : Env) (ps : PState) (ctx : Ctx) :
    (process_static_scraping env ps ctx).ps = ps
    ∧ (process_static_scraping env ps ctx).ctx.validated = ctx.validated
    ∧ (process_static_scraping env ps ctx).ctx.results = ctx.results
    ∧ (process_static_scraping env ps ctx).trace = [.staticFetch] := by
  simp only [process_static_scraping]
  repeat' split
  all_goals exact ⟨rfl, rfl, rfl, rfl⟩

/-- `_process_dynamic_scraping` never touches `validated`, `static_failed`
or `results`. -/
theorem pdy_frame (env : Env) (ps : PState) (ctx : Ctx) :
    (process_dynamic_scraping env ps ctx).ctx.validated = ctx.validated
    ∧ (process_dynamic_scraping env ps ctx).ctx.static_failed = ctx.static_failed
    ∧ (process_dynamic_scraping env ps ctx).ctx.results = ctx.results := by
  simp only [process_dynamic_scraping]
  repeat' split
  all_goals exact ⟨rfl, rfl, rfl⟩

/-- `_process_content_extraction` only writes `content`, and emits nothing. -/
theorem pe_frame (env : Env) (ps : PState) (ctx : Ctx) :
    (process_content_extraction env ps ctx).ps = ps
    ∧ (process_content_extraction env ps ctx).ctx.validated = ctx.validated
    ∧ (process_content_extraction env ps ctx).ctx.static_failed = ctx.static_failed
    ∧ (process_content_extraction env ps ctx).ctx.results = ctx.results
    ∧ (process_content_extraction env ps ctx).trace = [] := by
  simp only [process_content_extraction]
  repeat' split
  all_goals exact ⟨rfl, rfl, rfl, rfl, rfl⟩

/-- `_process_metadata_extraction` only writes `content`, and emits nothing. -/
theorem pm_frame (env : Env) (ps : PState) (ctx : Ctx) :
    (process_metadata_extraction env ps ctx).ps = ps
    ∧ (process_metadata_extraction env ps ctx).ctx.validated = ctx.validated
    ∧ (process_metadata_extraction env ps ctx).ctx.static_failed = ctx.static_failed
    ∧ (process_metadata_extraction env ps ctx).ctx.results = ctx.results
    ∧ (process_metadata_extraction env ps ctx).trace = [] := by
  simp only [process_metadata_extraction]
  repeat' split
  all_goals exact ⟨rfl, rfl, rfl, rfl, rfl⟩

/-- `_process_content_cleaning` only writes `content`, and emits nothing. -/
theorem pc_frame (env : Env) (ps : PState) (ctx : Ctx) :
    (process_content_cleaning env ps ctx).ps = ps
    ∧ (process_content_cleaning env ps ctx).ctx.validated = ctx.validated
    ∧ (process_content_cleaning env ps ctx).ctx.static_failed = ctx.static_failed
    ∧ (process_content_cleaning env ps ctx).ctx.results = ctx.results
    ∧ (process_content_cleaning env ps ctx).trace = [] := by
  simp only [process_content_cleaning]
  repeat' split
  all_goals exact ⟨rfl, rfl, rfl, rfl, rfl⟩

/-- `_process_content_validation` only writes `validated`, and emits
nothing. -/
theorem pv_frame (ps : PState) (ctx : Ctx) :
    (process_content_validation ps ctx).ps = ps
    ∧ (process_content_validation ps ctx).ctx.static_failed = ctx.static_failed
    ∧ (process_content_validation ps ctx).ctx.results = ctx.results
    ∧ (process_content_validation ps ctx).trace = [] := by
  simp only [process_content_validation]
  repeat' split
  all_goals exact ⟨rfl, rfl, rfl, rfl⟩

/-! ## Preservation through the retry loop and the stage loop -/

/-- A context observable preserved by a stage's processor and error handler
(and insensitive to `results`) is preserved by the whole retry loop. -/
theorem executeLoop_preserves {α : Type} (f : Ctx → α)
    {proc : PState → Ctx → ProcOut}
    {eh : Option (PState → Ctx → PState × Ctx × Bool)} (name : String)
    (hproc : ∀ ps' c, f (proc ps' c).ctx = f c)
    (hhan : ∀ ps' c, f (runHandler eh ps' c).2.1 = f c)
    (hres : ∀ c rs, f { c with results := rs } = f c) :
    ∀ budget delay : Nat, ∀ ps : PState, ∀ ctx : Ctx,
      f (executeLoop proc eh name budget delay ps ctx).2.1 = f ctx := by
  intro budget
  induction budget with
  | zero =>
    intro delay ps ctx
    rw [executeLoop.eq_def]
    cases hr : (proc ps ctx).result with
    | ok res =>
      cases res with
      | some r =>
        simp only [hr]
        rw [hres]
        exact hproc ps ctx
      | none =>
        simp only [hr]
        exact hproc ps ctx
    | error e =>
      simp only [hr]
      split
      · exact (hhan _ _).trans (hproc ps ctx)
      · exact (hhan _ _).trans (hproc ps ctx)
  | succ b ih =>
    intro delay ps ctx
    rw [executeLoop.eq_def]
    cases hr : (proc ps ctx).result with
    | ok res =>
      cases res with
      | some r =>
        simp only [hr]
        rw [hres]
        exact hproc ps ctx
      | none =>
        simp only [hr]
        exact hproc ps ctx
    | error e =>
      simp only [hr]
      split
      · exact (hhan _ _).trans (hproc ps ctx)
      · exact (ih _ _ _).trans ((hhan _ _).trans (hproc ps ctx))

/-- `Stage.execute` version of `executeLoop_preserves`. -/
theorem Stage.execute_preserves {α : Type} (f : Ctx → α) {st : Stage}
    (hproc : ∀ ps' c, f (st.processor ps' c).ctx = f c)
    (hhan : ∀ ps' c, f (runHandler st.error_handler ps' c).2.1 = f c)
    (hres : ∀ c rs, f { c with results := rs } = f c)
    (ps : PState) (ctx : Ctx) : f (st.execute ps ctx).ctx = f ctx :=
  executeLoop_preserves f st.name hproc hhan hres st.retry_attempts
    st.retry_delay ps ctx

/-- An event the processor never emits, other than a sleep, never appears in
the retry loop's trace. -/
theorem executeLoop_no_event {proc : PState → Ctx → ProcOut}
    {eh : Option (PState → Ctx → PState × Ctx × Bool)} (name : String)
    (e : Event) (hproc : ∀ ps' c, e ∉ (proc ps' c).trace)
    (hnotsleep : ∀ n, e ≠ .sleep n) :
    ∀ budget delay : Nat, ∀ ps : PState, ∀ ctx : Ctx,
      e ∉ (executeLoop proc eh name budget delay ps ctx).2.2.2.1 := by
  intro budget
  induction budget with
  | zero =>
    intro delay ps ctx
    rw [executeLoop.eq_def]
    cases hr : (proc ps ctx).result with
    | ok res =>
      cases res with
      | some r => simpa only [hr] using hproc ps ctx
      | none => simpa only [hr] using hproc ps ctx
    | error a =>
      simp only [hr]
      split
      · exact hproc ps ctx
      · exact hproc ps ctx
  | succ b ih =>
    intro delay ps ctx
    rw [executeLoop.eq_def]
    cases hr : (proc ps ctx).result with
    | ok res =>
      cases res with
      | some r => simpa only [hr] using hproc ps ctx
      | none => simpa only [hr] using hproc ps ctx
    | error a =>
      simp only [hr]
      split
      · exact hproc ps ctx
      · intro hmem
        rcases List.mem_append.mp hmem with hmem1 | hmem2
        · rcases List.mem_append.mp hmem1 with hmem3 | hmem4
          · exact hproc ps ctx hmem3
          · rcases List.mem_singleton.mp hmem4 with rfl
            exact hnotsleep delay rfl
        · exact ih _ _ _ hmem2

/-- `Stage.execute` version of `executeLoop_no_event`. -/
theorem Stage.execute_no_event {st : Stage} (e : Event)
    (hproc : ∀ ps' c, e ∉ (st.processor ps' c).trace)
    (hnotsleep : ∀ n, e ≠ .sleep n) (ps : PState) (ctx : Ctx) :
    e ∉ (st.execute ps ctx).trace :=
  executeLoop_no_event st.name e hproc hnotsleep st.retry_attempts
    st.retry_delay ps ctx

/-- The retry loop's trace starts with the first attempt's trace. -/
theorem executeLoop_trace_prefix {proc : PState → Ctx → ProcOut}
    {eh : Option (PState → Ctx → PState × Ctx × Bool)} (name : String)
    (budget delay : Nat) (ps : PState) (ctx : Ctx) :
    ∃ t : List Event,
      (executeLoop proc eh name budget delay ps ctx).2.2.2.1
        = (proc ps ctx).trace ++ t := by
  rw [executeLoop.eq_def]
  cases hr : (proc ps ctx).result with
  | ok res =>
    cases res with
    | some r => exact ⟨[], by simp only [hr]; rw [List.append_nil]⟩
    | none => exact ⟨[], by simp only [hr]; rw [List.append_nil]⟩
  | error a =>
    simp only [hr]
    split
    · exact ⟨[], by rw [List.append_nil]⟩
    · cases budget with
      | zero => exact ⟨[], by rw [List.append_nil]⟩
      | succ b =>
        exact ⟨[Event.sleep delay] ++
            (executeLoop proc eh name b (min (delay * 2) 30)
              (runHandler eh (proc ps ctx).ps (proc ps ctx).ctx).1
              (runHandler eh (proc ps ctx).ps (proc ps ctx).ctx).2.1).2.2.2.1,
          by simp only [List.append_assoc]⟩

/-- The retry loop never erases recorded results. -/
theorem executeLoop_results_mono {proc : PState → Ctx → ProcOut}
    {eh : Option (PState → Ctx → PState × Ctx × Bool)} (name : String)
    (hproc : ∀ ps' c, (proc ps' c).ctx.results = c.results)
    (hhan : ∀ ps' c, (runHandler eh ps' c).2.1.results = c.results) :
    ∀ budget delay : Nat, ∀ ps : PState, ∀ ctx : Ctx, ∀ x,
      x ∈ ctx.results → x ∈ (executeLoop proc eh name budget delay ps ctx).2.1.results := by
  intro budget
  induction budget with
  | zero =>
    intro delay ps ctx x hx
    rw [executeLoop.eq_def]
    cases hr : (proc ps ctx).result with
    | ok res =>
      cases res with
      | some r =>
        simp only [hr]
        rw [show ∀ c : Ctx, ∀ rs, ({ c with results := rs } : Ctx).results = rs
          from fun _ _ => rfl]
        rw [hproc ps ctx]
        exact List.mem_append_left _ hx
      | none =>
        simp only [hr]
        rw [hproc ps ctx]
        exact hx
    | error a =>
      simp only [hr]
      split
      · rw [hhan, hproc ps ctx]; exact hx
      · rw [hhan, hproc ps ctx]; exact hx
  | succ b ih =>
    intro delay ps ctx x hx
    rw [executeLoop.eq_def]
    cases hr : (proc ps ctx).result with
    | ok res =>
      cases res with
      | some r =>
        simp only [hr]
        rw [show ∀ c : Ctx, ∀ rs, ({ c with results := rs } : Ctx).results = rs
          from fun _ _ => rfl]
        rw [hproc ps ctx]
        exact List.mem_append_left _ hx
      | none =>
        simp only [hr]
        rw [hproc ps ctx]
        exact hx
    | error a =>
      simp only [hr]
      split
      · rw [hhan, hproc ps ctx]; exact hx
      · exact ih _ _ _ x (by rw [hhan, hproc ps ctx]; exact hx)

/-- A context observable preserved by every stage in the list is preserved
by the stage loop. -/
theorem runStages_preserves {α : Type} (f : Ctx → α)
    (hres : ∀ c rs, f { c with results := rs } = f c) :
    ∀ stages : List Stage,
      (∀ st ∈ stages, (∀ ps' c, f (st.processor ps' c).ctx = f c)
        ∧ (∀ ps' c, f (runHandler st.error_handler ps' c).2.1 = f c)) →
      ∀ ps : PState, ∀ ctx : Ctx, f (runStages stages ps ctx).ctx = f ctx := by
  intro stages
  induction stages with
  | nil => intro _ ps ctx; rfl
  | cons st rest ih =>
    intro hst ps ctx
    have hhead := hst st (List.mem_cons_self st rest)
    have htail := fun s hs => hst s (List.mem_cons_of_mem st hs)
    cases hsk : ctx.skip_remaining_stages with
    | true => rw [runStages_skip_all hsk]
    | false =>
      cases hok : (st.execute ps ctx).ok with
      | true =>
        rw [runStages_cons_run hsk rfl hok]
        exact (ih htail _ _).trans
          (Stage.execute_preserves f hhead.1 hhead.2 hres ps ctx)
      | false =>
        rw [runStages_cons_fail hsk rfl hok]
        exact Stage.execute_preserves f hhead.1 hhead.2 hres ps ctx

/-- An event no stage in the list can emit never appears in the stage
loop's trace. -/
theorem runStages_no_event (e : Event) (hnotsleep : ∀ n, e ≠ .sleep n) :
    ∀ stages : List Stage,
      (∀ st ∈ stages, ∀ ps' c, e ∉ (st.processor ps' c).trace) →
      ∀ ps : PState, ∀ ctx : Ctx, e ∉ (runStages stages ps ctx).trace := by
  intro stages
  induction stages with
  | nil => intro _ ps ctx; exact List.not_mem_nil e
  | cons st rest ih =>
    intro hst ps ctx
    have hhead := hst st (List.mem_cons_self st rest)
    have htail := fun s hs => hst s (List.mem_cons_of_mem st hs)
    cases hsk : ctx.skip_remaining_stages with
    | true => rw [runStages_skip_all hsk]; exact List.not_mem_nil e
    | false =>
      cases hok : (st.execute ps ctx).ok with
      | true =>
        rw [runStages_cons_run hsk rfl hok]
        intro hmem
        rcases List.mem_append.mp hmem with h1 | h2
        · exact Stage.execute_no_event e hhead hnotsleep ps ctx h1
        · exact ih htail _ _ h2
      | false =>
        rw [runStages_cons_fail hsk rfl hok]
        exact Stage.execute_no_event e hhead hnotsleep ps ctx

/-- The stage loop never erases recorded results. -/
theorem runStages_results_mono :
    ∀ stages : List Stage,
      (∀ st ∈ stages, (∀ ps' c, (st.processor ps' c).ctx.results = c.results)
        ∧ (∀ ps' c, (runHandler st.error_handler ps' c).2.1.results = c.results)) →
      ∀ ps : PState, ∀ ctx : Ctx, ∀ x, x ∈ ctx.results →
        x ∈ (runStages stages ps ctx).ctx.results := by
  intro stages
  induction stages with
  | nil => intro _ ps ctx x hx; exact hx
  | cons st rest ih =>
    intro hst ps ctx x hx
    have hhead := hst st (List.mem_cons_self st rest)
    have htail := fun s hs => hst s (List.mem_cons_of_mem st hs)
    cases hsk : ctx.skip_remaining_stages with
    | true => rw [runStages_skip_all hsk]; exact hx
    | false =>
      cases hok : (st.execute ps ctx).ok with
      | true =>
        rw [runStages_cons_run hsk rfl hok]
        exact ih htail _ _ x (executeLoop_results_mono st.name hhead.1 hhead.2
          st.retry_attempts st.retry_delay ps ctx x hx)
      | false =>
        rw [runStages_cons_fail hsk rfl hok]
        exact executeLoop_results_mono st.name hhead.1 hhead.2
          st.retry_attempts st.retry_delay ps ctx x hx

/-! ## C10 — the domain blocklist and the domain-analysis stage -/

/-- **C10.** `DomainRules.is_blocked(domain)` holds exactly when a blocklist
entry occurs as a substring of `domain`; hence every subdomain of a blocked
domain is blocked; and a blocked domain makes `_process_domain_analysis` set
`skip_remaining_stages`, so `scrape` returns `None` for it. -/
theorem is_blocked_substring_and_pipeline_skip :
    (∀ domain : String, is_blocked domain = true ↔
      ∃ b ∈ BLOCKED_DOMAINS, b.data <:+: domain.data)
    ∧ (∀ sub b : String, b ∈ BLOCKED_DOMAINS →
      is_blocked (sub ++ "." ++ b) = true)
    ∧ (∀ env : Env, ∀ mr : Nat, ∀ url : String,
      is_blocked (extract_domain url) = true →
      (scrapeRun (mkPipeline env mr) url).ctx.skip_remaining_stages = true
      ∧ (scrape (mkPipeline env mr) url).result = none) := by
  have hiff : ∀ domain : String, is_blocked domain = true ↔
      ∃ b ∈ BLOCKED_DOMAINS, b.data <:+: domain.data := by
    intro domain
    simp [is_blocked, containsStr, List.any_eq_true, containsSub_iff_infix]
  refine ⟨hiff, ?_, ?_⟩
  · intro sub b hb
    refine (hiff _).mpr ⟨b, hb, ?_⟩
    rw [String.data_append]
    exact (List.suffix_append _ _).isInfix
  · intro env mr url h
    have hres : (stDomain.processor ({} : PState) { url := url }).result
        = .ok (some (.domainBlocked (extract_domain url))) := by
      simp [stDomain, process_domain_analysis, h]
    have hrun : ∀ rest : List Stage,
        runStages (stDomain :: rest) ({} : PState) { url := url } =
        ⟨stDomain :: rest, (stDomain.processor ({} : PState) { url := url }).ps,
          { (stDomain.processor ({} : PState) { url := url }).ctx with
              results := (stDomain.processor ({} : PState) { url := url }).ctx.results
                ++ [("domain_analysis", .domainBlocked (extract_domain url))] },
          false, (stDomain.processor ({} : PState) { url := url }).trace ++ []⟩ := by
      intro rest
      rw [runStages_cons_run rfl (Stage.execute_ok hres) rfl]
      rw [runStages_skip_all (by simp [stDomain, process_domain_analysis, h])]
      rfl
    have hskip : (stDomain.processor ({} : PState) { url := url }).ctx.skip_remaining_stages
        = true := by
      simp [stDomain, process_domain_analysis, h]
    have hval : (stDomain.processor ({} : PState) { url := url }).ctx.validated
        = false := by
      simp [stDomain, process_domain_analysis, h]
    constructor
    · show (scrapeRun (mkPipeline env mr) url).ctx.skip_remaining_stages = true
      unfold scrapeRun mkPipeline definePipeline
      rw [hrun]
      exact hskip
    · show (scrape (mkPipeline env mr) url).result = none
      unfold scrape scrapeRun mkPipeline definePipeline
      rw [hrun]
      simp [hval]

/-- Witness for C10 at a concrete blocked URL. -/
theorem is_blocked_substring_and_pipeline_skip_witness :
    is_blocked (extract_domain "https://www.msn.com/story") = true
    ∧ ∀ env : Env,
      (scrape (mkPipeline env 3) "https://www.msn.com/story").result = none := by
  refine ⟨by decide, fun env => ?_⟩
  exact (is_blocked_substring_and_pipeline_skip.2.2 env 3
    "https://www.msn.com/story" (by decide)).2

/-! ## C7 — search date windows -/

/-- **C7.** `calculate_search_date_params` at "now" 2024-01-10 with publish
date 2024-01-01 and `days_old = 7` produces the window 2023-12-18 through
2024-01-31; for a parsed publish date at most 7 days before "now" it
produces the window "now minus 14 days" through "now plus 1 day"; with no
parseable publish date it falls back to the coarse bucket chosen from
`days_old` (week / month / quarter / year). -/
theorem search_date_params_windows :
    calculate_search_date_params (some (daysFromCivil 2024 1 1))
        (daysFromCivil 2024 1 10) 7 = "cdr:1,cd_min:12/18/2023,cd_max:1/31/2024"
    ∧ (∀ article now : Nat, ∀ days_old : Int,
        0 ≤ (now : Int) - (article : Int) → (now : Int) - (article : Int) ≤ 7 →
        calculate_search_date_params (some article) now days_old =
          "cdr:1,cd_min:" ++ formatDateMDY (now - 14) ++ ",cd_max:" ++
            formatDateMDY (now + 1))
    ∧ (∀ now : Nat, ∀ days_old : Int,
        calculate_search_date_params none now days_old =
          if days_old ≤ 1 then "qdr:w"
          else if days_old ≤ 7 then "qdr:m1"
          else if days_old ≤ 31 then "qdr:m3"
          else "qdr:y") := by
  refine ⟨by decide, ?_, ?_⟩
  · intro article now days_old _h0 h7
    simp only [calculate_search_date_params]
    rw [if_pos h7]
  · intro now days_old
    rfl

/-! ## C5 — populated metadata fields are never overwritten -/

/-- `m_init` never touches a present `headline` key. -/
theorem m_init_headline_isSome {url : String} {c : MContent}
    (h : c.headline.isSome = true) : (m_init url c).headline = c.headline := by
  obtain ⟨u, dm, hl, au, pd⟩ := c
  cases u <;> cases dm <;> cases au <;> cases pd <;> simp_all [m_init]

/-- `m_init` never touches a present `author` key. -/
theorem m_init_author_isSome {url : String} {c : MContent}
    (h : c.author.isSome = true) : (m_init url c).author = c.author := by
  obtain ⟨u, dm, hl, au, pd⟩ := c
  cases u <;> cases dm <;> cases hl <;> cases pd <;> simp_all [m_init]

/-- `m_init` never touches a present `publishDate` key. -/
theorem m_init_publishDate_isSome {url : String} {c : MContent}
    (h : c.publishDate.isSome = true) : (m_init url c).publishDate = c.publishDate := by
  obtain ⟨u, dm, hl, au, pd⟩ := c
  cases u <;> cases dm <;> cases hl <;> cases au <;> simp_all [m_init]

/-- The headline HTML tier is a no-op on a truthy headline. -/
theorem m_extract_headline_of_truthy {doc : MDoc} {c : MContent}
    (h : mtruthy c.headline = true) : m_extract_headline doc c = c := by
  simp [m_extract_headline, h]

/-- The author HTML tier is a no-op on a truthy author. -/
theorem m_extract_author_of_truthy {doc : MDoc} {c : MContent}
    (h : mtruthy c.author = true) : m_extract_author doc c = c := by
  simp [m_extract_author, h]

/-- The date HTML tier is a no-op on a truthy date. -/
theorem m_extract_publication_date_of_truthy {doc : MDoc} {c : MContent}
    (h : mtruthy c.publishDate = true) : m_extract_publication_date doc c = c := by
  simp [m_extract_publication_date, h]

/-- The author and date HTML tiers write only their own field. -/
theorem m_extract_author_keeps_others (doc : MDoc) (c : MContent) :
    (m_extract_author doc c).headline = c.headline
    ∧ (m_extract_author doc c).publishDate = c.publishDate := by
  unfold m_extract_author
  split
  · exact ⟨rfl, rfl⟩
  · split <;> exact ⟨rfl, rfl⟩

/-- The headline HTML tier writes only its own field. -/
theorem m_extract_headline_keeps_others (doc : MDoc) (c : MContent) :
    (m_extract_headline doc c).author = c.author
    ∧ (m_extract_headline doc c).publishDate = c.publishDate := by
  unfold m_extract_headline
  split
  · exact ⟨rfl, rfl⟩
  · split <;> exact ⟨rfl, rfl⟩

/-- The date HTML tier writes only its own field. -/
theorem m_extract_publication_date_keeps_others (doc : MDoc) (c : MContent) :
    (m_extract_publication_date doc c).headline = c.headline
    ∧ (m_extract_publication_date doc c).author = c.author := by
  unfold m_extract_publication_date
  split
  · exact ⟨rfl, rfl⟩
  · split <;> exact ⟨rfl, rfl⟩

/-- The NER fallback tier never overwrites a truthy headline. -/
theorem m_ner_tier_headline_of_truthy {doc : MDoc} {nlp_ok : Bool} {c : MContent}
    (h : mtruthy c.headline = true) : (m_ner_tier doc nlp_ok c).headline = c.headline := by
  unfold m_ner_tier
  simp only [h, not_true_eq_false, false_or, if_false]
  repeat' split
  all_goals rfl

/-- The NER fallback tier never overwrites a truthy author. -/
theorem m_ner_tier_author_of_truthy {doc : MDoc} {nlp_ok : Bool} {c : MContent}
    (h : mtruthy c.author = true) : (m_ner_tier doc nlp_ok c).author = c.author := by
  unfold m_ner_tier
  simp only [h, not_true_eq_false, false_or, if_false]
  repeat' split
  all_goals rfl

/-- The NER fallback tier never overwrites a truthy date. -/
theorem m_ner_tier_publishDate_of_truthy {doc : MDoc} {nlp_ok : Bool} {c : MContent}
    (h : mtruthy c.publishDate = true) :
    (m_ner_tier doc nlp_ok c).publishDate = c.publishDate := by
  unfold m_ner_tier
  simp only [h, not_true_eq_false, false_or, if_false]
  repeat' split
  all_goals rfl

/-- **C5.** A field already populated (nonempty) in the content record
passed to `MetadataExtractor.extract_metadata` is returned unchanged: no
HTML tier and no NER tier overwrites it, for each of `headline`, `author`
and `publishDate`. -/
theorem extract_metadata_preserves_populated_fields
    (doc : MDoc) (url : String) (c : MContent) (nlp_ok : Bool) :
    (mtruthy c.headline = true →
      (extract_metadata doc url (some c) nlp_ok).headline = c.headline)
    ∧ (mtruthy c.author = true →
      (extract_metadata doc url (some c) nlp_ok).author = c.author)
    ∧ (mtruthy c.publishDate = true →
      (extract_metadata doc url (some c) nlp_ok).publishDate = c.publishDate) := by
  have hsome : ∀ o : Option String, mtruthy o = true → o.isSome = true := by
    intro o ho
    cases o with
    | none => simp [mtruthy] at ho
    | some s => rfl
  refine ⟨?_, ?_, ?_⟩ <;> intro h
  · have h0 : (m_init url c).headline = c.headline :=
      m_init_headline_isSome (hsome _ h)
    have h1 : mtruthy (m_init url c).headline = true := by rw [h0]; exact h
    unfold extract_metadata
    simp only [Option.getD_some, m_extract_headline_of_truthy h1]
    have h2 := (m_extract_author_keeps_others doc (m_init url c)).1
    have h3 : mtruthy (m_extract_author doc (m_init url c)).headline = true := by
      rw [h2]; exact h1
    have h4 := (m_extract_publication_date_keeps_others doc
      (m_extract_author doc (m_init url c))).1
    have h5 : mtruthy (m_extract_publication_date doc
        (m_extract_author doc (m_init url c))).headline = true := by
      rw [h4]; exact h3
    rw [m_ner_tier_headline_of_truthy h5, h4, h2, h0]
  · have h0 : (m_init url c).author = c.author :=
      m_init_author_isSome (hsome _ h)
    have h1 : mtruthy (m_init url c).author = true := by rw [h0]; exact h
    unfold extract_metadata
    simp only [Option.getD_some]
    have h2 := (m_extract_headline_keeps_others doc (m_init url c)).1
    have h3 : mtruthy (m_extract_headline doc (m_init url c)).author = true := by
      rw [h2]; exact h1
    simp only [m_extract_author_of_truthy h3]
    have h4 := (m_extract_publication_date_keeps_others doc
      (m_extract_headline doc (m_init url c))).2
    have h5 : mtruthy (m_extract_publication_date doc
        (m_extract_headline doc (m_init url c))).author = true := by
      rw [h4]; exact h3
    rw [m_ner_tier_author_of_truthy h5, h4, h2, h0]
  · have h0 : (m_init url c).publishDate = c.publishDate :=
      m_init_publishDate_isSome (hsome _ h)
    have h1 : mtruthy (m_init url c).publishDate = true := by rw [h0]; exact h
    unfold extract_metadata
    simp only [Option.getD_some]
    have h2 := (m_extract_headline_keeps_others doc (m_init url c)).2
    have h3 : mtruthy (m_extract_headline doc (m_init url c)).publishDate = true := by
      rw [h2]; exact h1
    have h4 := (m_extract_author_keeps_others doc
      (m_extract_headline doc (m_init url c))).2
    have h5 : mtruthy (m_extract_author doc
        (m_extract_headline doc (m_init url c))).publishDate = true := by
      rw [h4]; exact h3
    simp only [m_extract_publication_date_of_truthy h5]
    rw [m_ner_tier_publishDate_of_truthy h5, h4, h2, h0]

/-- Witness for C5: a record with all three fields populated keeps them
through extraction against a document whose strategies would find other
values. -/
theorem extract_metadata_preserves_populated_fields_witness :
    mtruthy (some "Kept headline") = true
    ∧ (extract_metadata
        { headline_schema := some "Other", author_meta := some "Other author",
          date_regex := some "2020-01-01", ner_text := "text",
          ner_headline := some "N", ner_author := some "N", ner_date := some "2021" }
        "https://example.com/a"
        (some { headline := some "Kept headline", author := some "Kept author",
                publishDate := some "2024-05-05" })
        true).headline = some "Kept headline" :=
  ⟨by decide,
    (extract_metadata_preserves_populated_fields
      { headline_schema := some "Other", author_meta := some "Other author",
        date_regex := some "2020-01-01", ner_text := "text",
        ner_headline := some "N", ner_author := some "N", ner_date := some "2021" }
      "https://example.com/a"
      { headline := some "Kept headline", author := some "Kept author",
        publishDate := some "2024-05-05" }
      true).1 (by decide)⟩

/-- Witness for C7: a publish date 2 days before "now" takes the
recent-article branch. -/
theorem search_date_params_windows_witness :
    (0 : Int) ≤ (daysFromCivil 2024 1 10 : Int) - (daysFromCivil 2024 1 8 : Int)
    ∧ calculate_search_date_params (some (daysFromCivil 2024 1 8))
        (daysFromCivil 2024 1 10) 7 =
      "cdr:1,cd_min:" ++ formatDateMDY (daysFromCivil 2024 1 10 - 14) ++
        ",cd_max:" ++ formatDateMDY (daysFromCivil 2024 1 10 + 1) :=
  ⟨by decide, search_date_params_windows.2.1 (daysFromCivil 2024 1 8)
    (daysFromCivil 2024 1 10) 7 (by decide) (by decide)⟩

/-! ## C1 — all-or-nothing output of `scrape` -/

/-- A property of the context preserved by every stage's `execute` is an
invariant of the stage loop. -/
theorem runStages_inv (P : Ctx → Prop) :
    ∀ stages : List Stage,
      (∀ st ∈ stages, ∀ ps' : PState, ∀ c : Ctx, P c → P (st.execute ps' c).ctx) →
      ∀ ps : PState, ∀ ctx : Ctx, P ctx → P (runStages stages ps ctx).ctx := by
  intro stages
  induction stages with
  | nil => intro _ ps ctx h; exact h
  | cons st rest ih =>
    intro hst ps ctx h
    have hhead := hst st (List.mem_cons_self st rest)
    have htail := fun s hs => hst s (List.mem_cons_of_mem st hs)
    cases hsk : ctx.skip_remaining_stages with
    | true => rw [runStages_skip_all hsk]; exact h
    | false =>
      cases hok : (st.execute ps ctx).ok with
      | true =>
        rw [runStages_cons_run hsk rfl hok]
        exact ih htail _ _ (hhead ps ctx h)
      | false =>
        rw [runStages_cons_fail hsk rfl hok]
        exact hhead ps ctx h

/-- A stage whose processor and handler preserve `validated` and whose
processor preserves `results` keeps the "validated only via a recorded
content-validation result" invariant. -/
theorem preserving_stage_keeps_vinv {st : Stage}
    (hval : ∀ ps' c, (st.processor ps' c).ctx.validated = c.validated)
    (hres : ∀ ps' c, (st.processor ps' c).ctx.results = c.results)
    (hhanv : ∀ ps' c, (runHandler st.error_handler ps' c).2.1.validated = c.validated)
    (hhanr : ∀ ps' c, (runHandler st.error_handler ps' c).2.1.results = c.results)
    (ps : PState) (c : Ctx)
    (hP : c.validated = true → ∃ n hh ha hd,
      ("content_validation", StageResult.validationOk n hh ha hd) ∈ c.results) :
    (st.execute ps c).ctx.validated = true → ∃ n hh ha hd,
      ("content_validation", StageResult.validationOk n hh ha hd)
        ∈ (st.execute ps c).ctx.results := by
  intro hv
  have hpres : (st.execute ps c).ctx.validated = c.validated :=
    Stage.execute_preserves (fun c => c.validated) hval hhanv (fun _ _ => rfl) ps c
  obtain ⟨n, hh, ha, hd, hmem⟩ := hP (hpres ▸ hv)
  exact ⟨n, hh, ha, hd, executeLoop_results_mono st.name hres hhanr
    st.retry_attempts st.retry_delay ps c _ hmem⟩

/-- The content-validation stage either leaves `validated` false or records
a `validationOk` summary along with setting it. -/
theorem stValidate_keeps_vinv (ps : PState) (c : Ctx) :
    (stValidate.execute ps c).ctx.validated = true → ∃ n hh ha hd,
      ("content_validation", StageResult.validationOk n hh ha hd)
        ∈ (stValidate.execute ps c).ctx.results := by
  cases hc : c.content with
  | none =>
    have hout : stValidate.processor ps c =
        ⟨ps, { c with validated := false }, .ok (some .validationFail), []⟩ := by
      simp [stValidate, process_content_validation, hc]
    rw [Stage.execute_ok (by rw [hout]), hout]
    intro hv
    simp at hv
  | some cc =>
    have hout : stValidate.processor ps c =
        ⟨ps, { c with validated := true },
          .ok (some (.validationOk cc.text.length (cc.headline ≠ "")
            (cc.author ≠ "") (cc.publishDate ≠ ""))), []⟩ := by
      simp [stValidate, process_content_validation, hc]
    rw [Stage.execute_ok (by rw [hout]), hout]
    intro _
    exact ⟨cc.text.length, decide (cc.headline ≠ ""), decide (cc.author ≠ ""),
      decide (cc.publishDate ≠ ""),
      List.mem_append_right _ (List.mem_singleton.mpr rfl)⟩

/-- **C1.** For every environment and URL, `scrape` either returns `None`,
or the run's context was marked `validated` by a recorded
content-validation result and the returned value is exactly the context's
content record — never a partial record without validation. -/
theorem scrape_all_or_nothing (env : Env) (mr : Nat) (url : String) :
    (scrape (mkPipeline env mr) url).result = none
    ∨ ((scrapeRun (mkPipeline env mr) url).ctx.validated = true
       ∧ (scrape (mkPipeline env mr) url).result
           = (scrapeRun (mkPipeline env mr) url).ctx.content
       ∧ ∃ n hh ha hd, ("content_validation", StageResult.validationOk n hh ha hd)
           ∈ (scrapeRun (mkPipeline env mr) url).ctx.results) := by
  cases hf : (scrapeRun (mkPipeline env mr) url).failed with
  | true =>
    left
    simp [scrape, hf]
  | false =>
    cases hv : (scrapeRun (mkPipeline env mr) url).ctx.validated with
    | false =>
      left
      simp [scrape, hf, hv]
    | true =>
      right
      refine ⟨rfl, by simp [scrape, hf, hv], ?_⟩
      have hinv := runStages_inv
        (fun c => c.validated = true → ∃ n hh ha hd,
          ("content_validation", StageResult.validationOk n hh ha hd) ∈ c.results)
        (definePipeline env mr) ?_ ({} : PState) { url := url }
        (fun h => by simp at h)
      · exact hinv hv
      · intro st hst ps' c hP
        simp only [definePipeline, List.mem_cons, List.not_mem_nil, or_false] at hst
        rcases hst with rfl | rfl | rfl | rfl | rfl | rfl | rfl
        · exact @preserving_stage_keeps_vinv stDomain
            (fun ps' c => (pd_frame ps' c).2.1) (fun ps' c => (pd_frame ps' c).2.2.2.1)
            (fun _ _ => rfl) (fun _ _ => rfl) ps' c hP
        · exact @preserving_stage_keeps_vinv (stStatic env mr)
            (fun ps' c => (ps_frame env ps' c).2.1) (fun ps' c => (ps_frame env ps' c).2.2.1)
            (fun _ _ => rfl) (fun _ _ => rfl) ps' c hP
        · exact @preserving_stage_keeps_vinv (stDynamic env mr)
            (fun ps' c => (pdy_frame env ps' c).1) (fun ps' c => (pdy_frame env ps' c).2.2)
            (fun _ _ => rfl) (fun _ _ => rfl) ps' c hP
        · exact @preserving_stage_keeps_vinv (stExtract env mr)
            (fun ps' c => (pe_frame env ps' c).2.1) (fun ps' c => (pe_frame env ps' c).2.2.2.1)
            (fun _ _ => rfl) (fun _ _ => rfl) ps' c hP
        · exact @preserving_stage_keeps_vinv (stMeta env)
            (fun ps' c => (pm_frame env ps' c).2.1) (fun ps' c => (pm_frame env ps' c).2.2.2.1)
            (fun _ _ => rfl) (fun _ _ => rfl) ps' c hP
        · exact @preserving_stage_keeps_vinv (stClean env)
            (fun ps' c => (pc_frame env ps' c).2.1) (fun ps' c => (pc_frame env ps' c).2.2.2.1)
            (fun _ _ => rfl) (fun _ _ => rfl) ps' c hP
        · exact stValidate_keeps_vinv ps' c

/-! ## C2 — static-to-dynamic escalation -/

/-- When `static_failed` is set and no dynamic scraper exists yet, the
dynamic stage's processor initialises a live browser and performs a fetch. -/
theorem dynamic_fetch_on_failure {env : Env} {ps : PState} {c : Ctx}
    (hsf : c.static_failed = true) (hdrv : ps.dynScraper = none) :
    Event.dynFetch ∈ (process_dynamic_scraping env ps c).trace := by
  by_cases hd : env.dynamic_html = "" <;>
    simp [process_dynamic_scraping, hsf, dynamic_scraper_prop, hdrv,
      dyn_get_page_content, hd]

/-- **C2.** In a run whose static fetch produced a page judged meaningful,
the dynamic stage records a "skipped" result and no browser fetch is ever
performed; in a run whose static fetch produced a non-meaningful page
flagged as requiring JavaScript, `static_failed` is set (and stays set) and
a browser fetch is performed. -/
theorem static_dynamic_escalation (env : Env) (url : String) (s : String)
    (rjs : Bool) (hstatic : env.static_result = (s, rjs)) (hs : s ≠ "")
    (hnb : is_blocked (extract_domain url) = false) :
    (env.meaningful s = true →
      ("dynamic_scraping", StageResult.dynSkipped)
        ∈ (scrapeRun (mkPipeline env) url).ctx.results
      ∧ Event.dynFetch ∉ (scrapeRun (mkPipeline env) url).trace)
    ∧ (env.meaningful s = false → rjs = true →
      (scrapeRun (mkPipeline env) url).ctx.static_failed = true
      ∧ Event.dynFetch ∈ (scrapeRun (mkPipeline env) url).trace) := by
  have hout1 : stDomain.processor ({} : PState) { url := url } =
      ⟨{}, { ({ url := url } : Ctx) with domain := extract_domain url },
        .ok (some (.domainOk (extract_domain url))), []⟩ := by
    simp [stDomain, process_domain_analysis, hnb]
  have he1 : stDomain.execute ({} : PState) { url := url } =
      ⟨stDomain, {},
        { url := url, domain := extract_domain url,
          results := [("domain_analysis", .domainOk (extract_domain url))] },
        true, []⟩ := by
    rw [Stage.execute_ok (by rw [hout1]), hout1]
    rfl
  have hrest4 : ∀ st ∈ [stExtract env 3, stMeta env, stClean env, stValidate],
      (∀ ps' : PState, ∀ c : Ctx, (st.processor ps' c).trace = [])
      ∧ (∀ ps' : PState, ∀ c : Ctx, (st.processor ps' c).ctx.results = c.results)
      ∧ (∀ ps' : PState, ∀ c : Ctx,
          (st.processor ps' c).ctx.static_failed = c.static_failed)
      ∧ st.error_handler = none := by
    intro st hst
    simp only [List.mem_cons, List.not_mem_nil, or_false] at hst
    rcases hst with rfl | rfl | rfl | rfl
    · exact ⟨fun ps' c => (pe_frame env ps' c).2.2.2.2,
        fun ps' c => (pe_frame env ps' c).2.2.2.1,
        fun ps' c => (pe_frame env ps' c).2.2.1, rfl⟩
    · exact ⟨fun ps' c => (pm_frame env ps' c).2.2.2.2,
        fun ps' c => (pm_frame env ps' c).2.2.2.1,
        fun ps' c => (pm_frame env ps' c).2.2.1, rfl⟩
    · exact ⟨fun ps' c => (pc_frame env ps' c).2.2.2.2,
        fun ps' c => (pc_frame env ps' c).2.2.2.1,
        fun ps' c => (pc_frame env ps' c).2.2.1, rfl⟩
    · exact ⟨fun ps' c => (pv_frame ps' c).2.2.2,
        fun ps' c => (pv_frame ps' c).2.2.1,
        fun ps' c => (pv_frame ps' c).2.1, rfl⟩
  constructor
  · -- scenario A: meaningful content, dynamic stage skipped
    intro hm
    have hout2 : (stStatic env 3).processor ({} : PState)
        { url := url, domain := extract_domain url,
          results := [("domain_analysis", .domainOk (extract_domain url))] } =
        ⟨{},
          { url := url, domain := extract_domain url, soup := s,
            results := [("domain_analysis", .domainOk (extract_domain url))] },
          .ok (some (.staticSuccess s.length)), [.staticFetch]⟩ := by
      simp [stStatic, process_static_scraping, hstatic, hs, hm]
    have he2 : (stStatic env 3).execute ({} : PState)
        { url := url, domain := extract_domain url,
          results := [("domain_analysis", .domainOk (extract_domain url))] } =
        ⟨stStatic env 3, {},
          { url := url, domain := extract_domain url, soup := s,
            results := [("domain_analysis", .domainOk (extract_domain url)),
              ("static_scraping", .staticSuccess s.length)] },
          true, [.staticFetch]⟩ := by
      rw [Stage.execute_ok (by rw [hout2]), hout2]
      rfl
    have hout3 : (stDynamic env 3).processor ({} : PState)
        { url := url, domain := extract_domain url, soup := s,
          results := [("domain_analysis", .domainOk (extract_domain url)),
            ("static_scraping", .staticSuccess s.length)] } =
        ⟨{},
          { url := url, domain := extract_domain url, soup := s,
            dynamic_skipped := true,
            results := [("domain_analysis", .domainOk (extract_domain url)),
              ("static_scraping", .staticSuccess s.length)] },
          .ok (some .dynSkipped), []⟩ := by
      simp [stDynamic, process_dynamic_scraping]
    have he3 : (stDynamic env 3).execute ({} : PState)
        { url := url, domain := extract_domain url, soup := s,
          results := [("domain_analysis", .domainOk (extract_domain url)),
            ("static_scraping", .staticSuccess s.length)] } =
        ⟨stDynamic env 3, {},
          { url := url, domain := extract_domain url, soup := s,
            dynamic_skipped := true,
            results := [("domain_analysis", .domainOk (extract_domain url)),
              ("static_scraping", .staticSuccess s.length),
              ("dynamic_scraping", .dynSkipped)] },
          true, []⟩ := by
      rw [Stage.execute_ok (by rw [hout3]), hout3]
      rfl
    have hrun : scrapeRun (mkPipeline env) url =
        runStages (definePipeline env 3) ({} : PState) { url := url } := rfl
    rw [hrun]
    show _ ∧ _
    rw [show definePipeline env 3 = stDomain :: stStatic env 3 :: stDynamic env 3 ::
      [stExtract env 3, stMeta env, stClean env, stValidate] from rfl]
    rw [runStages_cons_run rfl he1 rfl]
    rw [runStages_cons_run rfl he2 rfl]
    rw [runStages_cons_run rfl he3 rfl]
    constructor
    · exact runStages_results_mono _
        (fun st hst => ⟨(hrest4 st hst).2.1,
          fun ps' c => by rw [(hrest4 st hst).2.2.2]; rfl⟩) _ _ _ (by simp)
    · intro hmem
      rcases List.mem_append.mp hmem with h | hmem2
      · simp at h
      rcases List.mem_append.mp hmem2 with h | hmem3
      · simp at h
      rcases List.mem_append.mp hmem3 with h | hmem4
      · simp at h
      · exact runStages_no_event Event.dynFetch (fun n => by simp) _
          (fun st hst ps' c => by rw [(hrest4 st hst).1]; exact List.not_mem_nil _)
          _ _ hmem4
  · -- scenario B: non-meaningful page requiring JavaScript
    intro hm hrjs
    subst hrjs
    have hout2 : (stStatic env 3).processor ({} : PState)
        { url := url, domain := extract_domain url,
          results := [("domain_analysis", .domainOk (extract_domain url))] } =
        ⟨{},
          { url := url, domain := extract_domain url, soup := s,
            requires_dynamic := true, static_failed := true,
            results := [("domain_analysis", .domainOk (extract_domain url))] },
          .ok (some .staticNeedsJs), [.staticFetch]⟩ := by
      simp [stStatic, process_static_scraping, hstatic, hs, hm]
    have he2 : (stStatic env 3).execute ({} : PState)
        { url := url, domain := extract_domain url,
          results := [("domain_analysis", .domainOk (extract_domain url))] } =
        ⟨stStatic env 3, {},
          { url := url, domain := extract_domain url, soup := s,
            requires_dynamic := true, static_failed := true,
            results := [("domain_analysis", .domainOk (extract_domain url)),
              ("static_scraping", .staticNeedsJs)] },
          true, [.staticFetch]⟩ := by
      rw [Stage.execute_ok (by rw [hout2]), hout2]
      rfl
    have hfetch3 : Event.dynFetch ∈ ((stDynamic env 3).processor ({} : PState)
        { url := url, domain := extract_domain url, soup := s,
          requires_dynamic := true, static_failed := true,
          results := [("domain_analysis", .domainOk (extract_domain url)),
            ("static_scraping", .staticNeedsJs)] }).trace := by
      exact dynamic_fetch_on_failure rfl rfl
    have hfetchexec : Event.dynFetch ∈ ((stDynamic env 3).execute ({} : PState)
        { url := url, domain := extract_domain url, soup := s,
          requires_dynamic := true, static_failed := true,
          results := [("domain_analysis", .domainOk (extract_domain url)),
            ("static_scraping", .staticNeedsJs)] }).trace := by
      obtain ⟨t, ht⟩ := executeLoop_trace_prefix (stDynamic env 3).name
        (stDynamic env 3).retry_attempts (stDynamic env 3).retry_delay
        ({} : PState) _
      show Event.dynFetch ∈ (executeLoop (stDynamic env 3).processor
        (stDynamic env 3).error_handler (stDynamic env 3).name
        (stDynamic env 3).retry_attempts (stDynamic env 3).retry_delay
        ({} : PState) _).2.2.2.1
      rw [ht]
      exact List.mem_append_left _ hfetch3
    have hsfpres : ∀ c : Ctx, ((stDynamic env 3).execute ({} : PState) c).ctx.static_failed
        = c.static_failed :=
      fun c => @Stage.execute_preserves Bool (fun c => c.static_failed)
        (stDynamic env 3) (fun ps' c' => (pdy_frame env ps' c').2.1)
        (fun _ _ => rfl) (fun _ _ => rfl) ({} : PState) c
    have hrun : scrapeRun (mkPipeline env) url =
        runStages (definePipeline env 3) ({} : PState) { url := url } := rfl
    rw [hrun]
    rw [show definePipeline env 3 = stDomain :: stStatic env 3 :: stDynamic env 3 ::
      [stExtract env 3, stMeta env, stClean env, stValidate] from rfl]
    rw [runStages_cons_run rfl he1 rfl]
    rw [runStages_cons_run rfl he2 rfl]
    cases hok3 : ((stDynamic env 3).execute ({} : PState)
        { url := url, domain := extract_domain url, soup := s,
          requires_dynamic := true, static_failed := true,
          results := [("domain_analysis", .domainOk (extract_domain url)),
            ("static_scraping", .staticNeedsJs)] }).ok with
    | false =>
      rw [runStages_cons_fail rfl rfl hok3]
      constructor
      · rw [hsfpres]
      · exact List.mem_append_right _ (List.mem_append_right _ hfetchexec)
    | true =>
      rw [runStages_cons_run rfl rfl hok3]
      constructor
      · rw [runStages_preserves (fun c => c.static_failed) (fun _ _ => rfl) _
          (fun st hst => ⟨(hrest4 st hst).2.2.1,
            fun ps' c => by rw [(hrest4 st hst).2.2.2]; rfl⟩) _ _]
        rw [hsfpres]
      · exact List.mem_append_right _ (List.mem_append_right _
          (List.mem_append_left _ hfetchexec))

/-- Witness for C2: a concrete environment whose static page is judged
meaningful — the dynamic stage reports "skipped" and no browser fetch ever
happens. -/
theorem static_dynamic_escalation_witness :
    ("dynamic_scraping", StageResult.dynSkipped)
      ∈ (scrapeRun (mkPipeline envStaticOk) "https://example.com/a").ctx.results
    ∧ Event.dynFetch ∉ (scrapeRun (mkPipeline envStaticOk) "https://example.com/a").trace :=
  (static_dynamic_escalation envStaticOk "https://example.com/a" "<p>body</p>"
    false rfl (by decide) (by decide)).1 rfl

/-! ## C9 — the browser handle after an in-stage cleanup -/

/-- **C9.** Evaluating the pipeline code at the claim's scenario: a first
`scrape` whose static stage fails escalates to the browser (initialising it
and fetching), succeeds, and — per `_process_dynamic_scraping`, line 345 —
calls `cleanup()` on the dynamic scraper without clearing the pipeline's
`_dynamic_scraper` reference, leaving a torn-down handle in place.  A second
`scrape` on the same pipeline whose static stage fails again performs no
browser re-initialisation and no fetch: the `dynamic_scraper` property
returns the torn-down scraper, whose `get_page_content` yields an empty
(falsy) soup, so the dynamic stage raises until its budget is exhausted and
the whole call returns `None` — the resource is never transparently
re-created, contradicting the claimed (and specified) lazy re-creation. -/
theorem dynamic_scraper_not_reinitialized_after_stage_cleanup :
    (scrape (mkPipeline envDynOk) "https://example.com/a").result.isSome = true
    ∧ (scrape (mkPipeline envDynOk) "https://example.com/a").pipeline.pstate.dynScraper
        = some ⟨false⟩
    ∧ Event.dynInit ∈ (scrape (mkPipeline envDynOk) "https://example.com/a").trace
    ∧ Event.dynFetch ∈ (scrape (mkPipeline envDynOk) "https://example.com/a").trace
    ∧ (scrape (scrape (mkPipeline envDynOk) "https://example.com/a").pipeline
        "https://example.com/a").result = none
    ∧ Event.dynInit ∉ (scrape (scrape (mkPipeline envDynOk) "https://example.com/a").pipeline
        "https://example.com/a").trace
    ∧ Event.dynFetch ∉ (scrape (scrape (mkPipeline envDynOk) "https://example.com/a").pipeline
        "https://example.com/a").trace := by
  decide

/-! ## C4 — exponential backoff of a failing stage -/

/-- **C4.** A `PipelineStage` configured with `retry_delay = 2` and
`retry_attempts = 3` whose processor raises on every attempt (and sleeps
only through the retry loop) and whose error handler, if any, never reports
"handled": `execute` sleeps exactly three times, for 2, 4 and 8 time-units
(each delay the previous one doubled, capped at 30), then returns failure —
and a failing stage makes the whole stage loop, hence `scrape`, fail. -/
theorem stage_backoff_sleeps_2_4_8_then_fails
    (st : Stage) (ps : PState) (ctx : Ctx)
    (hattempts : st.retry_attempts = 3) (hdelay : st.retry_delay = 2)
    (hfail : ∀ ps' c, (st.processor ps' c).result = .error ())
    (hnosleep : ∀ ps' c, sleepsOf (st.processor ps' c).trace = [])
    (hhandled : ∀ ps' c, (runHandler st.error_handler ps' c).2.2 = false) :
    (st.execute ps ctx).ok = false
    ∧ sleepsOf (st.execute ps ctx).trace = [2, 4, 8]
    ∧ (∀ rest : List Stage, ∀ ps2 : PState, ∀ ctx2 : Ctx,
        ctx2.skip_remaining_stages = false →
        (runStages (st :: rest) ps2 ctx2).failed = true) := by
  have key := executeLoop_always_fails st.name hfail hnosleep hhandled
  refine ⟨(key _ _ _ _).1, ?_, ?_⟩
  · show sleepsOf (executeLoop st.processor st.error_handler st.name
        st.retry_attempts st.retry_delay ps ctx).2.2.2.1 = [2, 4, 8]
    rw [(key st.retry_attempts st.retry_delay ps ctx).2.1, hattempts, hdelay]
    decide
  · intro rest ps2 ctx2 hskip
    have hok : (st.execute ps2 ctx2).ok = false := (key _ _ _ _).1
    rw [runStages_cons_fail hskip rfl hok]

/-- Witness for C4: the concrete always-failing stage. -/
theorem stage_backoff_sleeps_2_4_8_then_fails_witness :
    (failingStage.execute {} { url := "u" }).ok = false
    ∧ sleepsOf (failingStage.execute {} { url := "u" }).trace = [2, 4, 8] := by
  have key := stage_backoff_sleeps_2_4_8_then_fails failingStage {} { url := "u" }
    rfl rfl (fun _ _ => rfl) (fun _ _ => rfl) (fun _ _ => rfl)
  exact ⟨key.1, key.2.1⟩

/-! ## C8 — the retry delay across `execute` calls -/

/-- **C8 counterexample.**  The stage list of a `ScrapingPipeline` is built
once, and a stage's `retry_delay` is never reset: with an environment in
which static scraping is handled by falling back to dynamic scraping and
dynamic scraping always fails, the first `scrape` call's dynamic stage
sleeps 3 then 6 (its configured delay is 3), and a second `scrape` call on
the same pipeline object sleeps 12 then 24 — its first sleep is the
leftover escalated delay 12, not the configured delay 3, refuting the claim
that a subsequent `execute` begins with the originally configured delay. -/
theorem retry_delay_not_reset_across_runs_cex :
    sleepsOf (scrape (mkPipeline envAllFail) "https://example.com/a").trace = [3, 6]
    ∧ sleepsOf (scrape (scrape (mkPipeline envAllFail) "https://example.com/a").pipeline
        "https://example.com/a").trace = [12, 24]
    ∧ (List.head? [12, 24] ≠ some 3) := by
  decide

/-- **C8 (amended).**  A stage's retry delay is mutable state on the
`PipelineStage` instance that persists across `execute` calls: after an
`execute` call whose processor failed every attempt (handler, if any, never
reporting "handled"), the stage's `retry_delay` holds the escalated value
`delaySpec retry_attempts retry_delay`, and a subsequent `execute` call on
that same stage begins its sleeps from that escalated value, not from the
originally configured delay. -/
theorem retry_delay_escalation_persists_across_execute
    (st : Stage) (ps : PState) (ctx : Ctx)
    (hfail : ∀ ps' c, (st.processor ps' c).result = .error ())
    (hnosleep : ∀ ps' c, sleepsOf (st.processor ps' c).trace = [])
    (hhandled : ∀ ps' c, (runHandler st.error_handler ps' c).2.2 = false) :
    (st.execute ps ctx).stage.retry_delay = delaySpec st.retry_attempts st.retry_delay
    ∧ ∀ ps2 : PState, ∀ ctx2 : Ctx,
      sleepsOf ((st.execute ps ctx).stage.execute ps2 ctx2).trace
        = sleepsSpec st.retry_attempts (delaySpec st.retry_attempts st.retry_delay) := by
  have key := executeLoop_always_fails st.name hfail hnosleep hhandled
  refine ⟨(key st.retry_attempts st.retry_delay ps ctx).2.2, ?_⟩
  intro ps2 ctx2
  show sleepsOf (executeLoop st.processor st.error_handler st.name
      st.retry_attempts
      (executeLoop st.processor st.error_handler st.name st.retry_attempts
        st.retry_delay ps ctx).2.2.2.2 ps2 ctx2).2.2.2.1 = _
  rw [(key st.retry_attempts st.retry_delay ps ctx).2.2]
  exact (key _ _ ps2 ctx2).2.1

/-- Witness for the amended C8: the concrete always-failing stage leaves its
delay at 16, and its next `execute` sleeps 16, 30, 30. -/
theorem retry_delay_escalation_persists_across_execute_witness :
    (failingStage.execute {} { url := "u" }).stage.retry_delay = 16
    ∧ sleepsOf ((failingStage.execute {} { url := "u" }).stage.execute {}
        { url := "u" }).trace = [16, 30, 30] := by
  have key := retry_delay_escalation_persists_across_execute failingStage
    {} { url := "u" } (fun _ _ => rfl) (fun _ _ => rfl) (fun _ _ => rfl)
  refine ⟨?_, ?_⟩
  · rw [key.1]; decide
  · rw [key.2 {} { url := "u" }]; decide

/-! ## C6 — `normalise_url`: tracking removal and idempotence

Structural lemmas about the splitting and joining helpers, mirroring the
string manipulations of `text_utils.normalise_url`. -/

theorem splitFirst_fst_not_mem (c : Char) (l : List Char) :
    c ∉ (splitFirst c l).1 := by
  induction l with
  | nil => simp [splitFirst]
  | cons x xs ih =>
    by_cases h : x = c
    · simp [splitFirst, h]
    · simp only [splitFirst, if_neg h, List.mem_cons, not_or]
      exact ⟨fun hc => h hc.symm, ih⟩

theorem splitFirst_snd_none_iff (c : Char) (l : List Char) :
    (splitFirst c l).2 = none ↔ c ∉ l := by
  induction l with
  | nil => simp [splitFirst]
  | cons x xs ih =>
    by_cases h : x = c
    · simp [splitFirst, h]
    · simp only [splitFirst, if_neg h, List.mem_cons, not_or]
      exact ⟨fun hn => ⟨fun hc => h hc.symm, ih.mp hn⟩, fun ⟨_, h2⟩ => ih.mpr h2⟩

theorem splitFirst_recover (c : Char) (l b : List Char)
    (h : (splitFirst c l).2 = some b) : l = (splitFirst c l).1 ++ c :: b := by
  induction l generalizing b with
  | nil => simp [splitFirst] at h
  | cons x xs ih =>
    by_cases hx : x = c
    · simp only [splitFirst, if_pos hx] at h ⊢
      cases h
      simp [hx]
    · simp only [splitFirst, if_neg hx] at h ⊢
      rw [List.cons_append]
      exact congrArg (x :: ·) (ih b h)

theorem splitFirst_sep_append (c : Char) (a b : List Char) (h : c ∉ a) :
    splitFirst c (a ++ c :: b) = (a, some b) := by
  induction a with
  | nil => simp [splitFirst]
  | cons x xs ih =>
    have hx : x ≠ c := fun hc => h (hc ▸ List.mem_cons_self x xs)
    have hxs : c ∉ xs := fun hc => h (List.mem_cons_of_mem x hc)
    simp [splitFirst, if_neg hx, ih hxs]

theorem mem_splitFirst_fst (c : Char) {l : List Char} {x : Char}
    (hx : x ∈ (splitFirst c l).1) : x ∈ l := by
  induction l with
  | nil => simp [splitFirst] at hx
  | cons y ys ih =>
    by_cases hy : y = c
    · simp [splitFirst, hy] at hx
    · simp only [splitFirst, if_neg hy, List.mem_cons] at hx
      rcases hx with h1 | h2
      · exact h1 ▸ List.mem_cons_self y ys
      · exact List.mem_cons_of_mem y (ih h2)

theorem splitAll_ne_nil (c : Char) (l : List Char) : splitAll c l ≠ [] := by
  cases l with
  | nil => simp [splitAll]
  | cons x xs =>
    by_cases h : x = c <;> simp [splitAll, h]

theorem splitAll_single (c : Char) (p : List Char) (h : c ∉ p) :
    splitAll c p = [p] := by
  induction p with
  | nil => rfl
  | cons x xs ih =>
    have hx : x ≠ c := fun hc => h (hc ▸ List.mem_cons_self x xs)
    have hxs : c ∉ xs := fun hc => h (List.mem_cons_of_mem x hc)
    simp [splitAll, if_neg hx, ih hxs]

theorem splitAll_sep_append (c : Char) (p rest : List Char) (h : c ∉ p) :
    splitAll c (p ++ c :: rest) = p :: splitAll c rest := by
  induction p with
  | nil => simp [splitAll]
  | cons x xs ih =>
    have hx : x ≠ c := fun hc => h (hc ▸ List.mem_cons_self x xs)
    have hxs : c ∉ xs := fun hc => h (List.mem_cons_of_mem x hc)
    simp [splitAll, if_neg hx, ih hxs]

theorem joinSep_cons_ne (c : Char) (p : List Char) {ps : List (List Char)}
    (h : ps ≠ []) : joinSep c (p :: ps) = p ++ c :: joinSep c ps := by
  cases ps with
  | nil => exact absurd rfl h
  | cons q qs => rfl

theorem joinSep_splitAll (c : Char) (l : List Char) :
    joinSep c (splitAll c l) = l := by
  induction l with
  | nil => rfl
  | cons x xs ih =>
    by_cases h : x = c
    · rw [show splitAll c (x :: xs) = [] :: splitAll c xs by simp [splitAll, h],
        joinSep_cons_ne c [] (splitAll_ne_nil c xs), ih, h, List.nil_append]
    · cases hP : splitAll c xs with
      | nil => exact absurd hP (splitAll_ne_nil c xs)
      | cons q qs =>
        rw [hP] at ih
        rw [show splitAll c (x :: xs) = (x :: (splitAll c xs).headI)
              :: (splitAll c xs).tail by simp [splitAll, h], hP]
        cases qs with
        | nil =>
          simp only [List.headI, List.tail, joinSep]
          simp only [joinSep] at ih
          exact congrArg (x :: ·) ih
        | cons r rs =>
          simp only [List.headI, List.tail]
          rw [joinSep_cons_ne c (x :: q) (by simp),
            joinSep_cons_ne c q (by simp)] at *
          rw [List.cons_append]
          exact congrArg (x :: ·) ih

theorem splitAll_joinSep (c : Char) (parts : List (List Char))
    (hne : parts ≠ []) (hm : ∀ p ∈ parts, c ∉ p) :
    splitAll c (joinSep c parts) = parts := by
  induction parts with
  | nil => exact absurd rfl hne
  | cons p ps ih =>
    cases ps with
    | nil => exact splitAll_single c p (hm p (List.mem_cons_self p []))
    | cons q qs =>
      rw [joinSep_cons_ne c p (by simp),
        splitAll_sep_append c p _ (hm p (List.mem_cons_self p _)),
        ih (by simp) (fun r hr => hm r (List.mem_cons_of_mem p hr))]

theorem mem_splitAll_not_mem (c : Char) {l p : List Char}
    (hp : p ∈ splitAll c l) : c ∉ p := by
  induction l generalizing p with
  | nil =>
    simp only [splitAll, List.mem_singleton] at hp
    simp [hp]
  | cons x xs ih =>
    by_cases h : x = c
    · simp only [splitAll, if_pos h, List.mem_cons] at hp
      rcases hp with h1 | h2
      · simp [h1]
      · exact ih h2
    · simp only [splitAll, if_neg h, List.mem_cons] at hp
      cases hP : splitAll c xs with
      | nil => exact absurd hP (splitAll_ne_nil c xs)
      | cons q qs =>
        rw [hP] at hp
        simp only [List.headI, List.tail] at hp
        rcases hp with h1 | h2
        · subst h1
          intro hc
          rcases List.mem_cons.mp hc with hcx | hcq
          · exact h hcx.symm
          · exact ih (by rw [hP]; exact List.mem_cons_self q qs) hcq
        · exact ih (by rw [hP]; exact List.mem_cons_of_mem q h2)

theorem mem_splitAll_mem (c : Char) {l p : List Char} {x : Char}
    (hp : p ∈ splitAll c l) (hx : x ∈ p) : x ∈ l := by
  induction l generalizing p with
  | nil =>
    simp only [splitAll, List.mem_singleton] at hp
    subst hp
    simp at hx
  | cons y ys ih =>
    by_cases h : y = c
    · simp only [splitAll, if_pos h, List.mem_cons] at hp
      rcases hp with h1 | h2
      · subst h1; simp at hx
      · exact List.mem_cons_of_mem y (ih h2 hx)
    · simp only [splitAll, if_neg h, List.mem_cons] at hp
      cases hP : splitAll c ys with
      | nil => exact absurd hP (splitAll_ne_nil c ys)
      | cons q qs =>
        rw [hP] at hp
        simp only [List.headI, List.tail] at hp
        rcases hp with h1 | h2
        · subst h1
          rcases List.mem_cons.mp hx with h1 | h2
          · exact h1 ▸ List.mem_cons_self y ys
          · exact List.mem_cons_of_mem y
              (ih (by rw [hP]; exact List.mem_cons_self q qs) h2)
        · exact List.mem_cons_of_mem y
            (ih (by rw [hP]; exact List.mem_cons_of_mem q h2) hx)

theorem mem_joinSep (c : Char) {parts : List (List Char)} {x : Char}
    (hx : x ∈ joinSep c parts) : x = c ∨ ∃ p ∈ parts, x ∈ p := by
  induction parts with
  | nil => simp [joinSep] at hx
  | cons p ps ih =>
    cases ps with
    | nil =>
      simp only [joinSep] at hx
      exact Or.inr ⟨p, List.mem_cons_self p [], hx⟩
    | cons q qs =>
      rw [joinSep_cons_ne c p (by simp)] at hx
      rcases List.mem_append.mp hx with h1 | h2
      · exact Or.inr ⟨p, List.mem_cons_self p _, h1⟩
      · rcases List.mem_cons.mp h2 with h1 | h2
        · exact Or.inl h1
        · rcases ih h2 with h | ⟨r, hr, hxr⟩
          · exact Or.inl h
          · exact Or.inr ⟨r, List.mem_cons_of_mem p hr, hxr⟩

theorem dropLast_cons_ne {α : Type} (x : α) {l : List α} (h : l ≠ []) :
    (x :: l).dropLast = x :: l.dropLast := by
  cases l with
  | nil => exact absurd rfl h
  | cons y t => rfl

theorem getLast?_cons_ne {α : Type} (x : α) {l : List α} (h : l ≠ []) :
    (x :: l).getLast? = l.getLast? := by
  cases l with
  | nil => exact absurd rfl h
  | cons y t => simp [List.getLast?]

theorem dropLast_append_ne {α : Type} (a : List α) {b : List α} (hb : b ≠ []) :
    (a ++ b).dropLast = a ++ b.dropLast := by
  induction a with
  | nil => rfl
  | cons x a ih =>
    have hab : a ++ b ≠ [] := fun h0 => hb (List.append_eq_nil.mp h0).2
    rw [List.cons_append, dropLast_cons_ne x hab, ih, List.cons_append]

theorem getLast?_append_ne {α : Type} (a : List α) {b : List α} (hb : b ≠ []) :
    (a ++ b).getLast? = b.getLast? := by
  induction a with
  | nil => rfl
  | cons x a ih =>
    have hab : a ++ b ≠ [] := fun h0 => hb (List.append_eq_nil.mp h0).2
    rw [List.cons_append, getLast?_cons_ne x hab, ih]

theorem mem_of_mem_dropLast {α : Type} {l : List α} {x : α}
    (h : x ∈ l.dropLast) : x ∈ l := by
  induction l with
  | nil => simp at h
  | cons y t ih =>
    cases t with
    | nil => simp [List.dropLast] at h
    | cons z s =>
      rw [dropLast_cons_ne y (List.cons_ne_nil z s)] at h
      rcases List.mem_cons.mp h with h1 | h2
      · exact h1 ▸ List.mem_cons_self y _
      · exact List.mem_cons_of_mem y (ih h2)

theorem joinSep_ne_nil (c : Char) (init : List (List Char)) {q : List Char}
    (hq : q ≠ []) : joinSep c (init ++ [q]) ≠ [] := by
  cases init with
  | nil => simpa [joinSep] using hq
  | cons p ps =>
    rw [List.cons_append, joinSep_cons_ne c p (by simp)]
    intro h0
    rcases List.append_eq_nil.mp h0 with ⟨_, h2⟩
    exact List.cons_ne_nil _ _ h2

theorem joinSep_getLast (c : Char) (init : List (List Char)) (q : List Char)
    {ch : Char} (hch : ch ≠ c)
    (h : (joinSep c (init ++ [q])).getLast? = some ch) :
    q.getLast? = some ch := by
  induction init with
  | nil => simpa [joinSep] using h
  | cons p ps ih =>
    rw [List.cons_append, joinSep_cons_ne c p (by simp),
      getLast?_append_ne p (List.cons_ne_nil _ _)] at h
    cases hJ : joinSep c (ps ++ [q]) with
    | nil =>
      rw [hJ] at h
      simp only [List.getLast?] at h
      exact absurd (Option.some.inj h).symm hch
    | cons y t =>
      rw [hJ, getLast?_cons_ne c (List.cons_ne_nil y t), ← hJ] at h
      exact ih h

theorem joinSep_dropLast (c : Char) (init : List (List Char)) (q : List Char)
    (hq : q ≠ []) :
    (joinSep c (init ++ [q])).dropLast = joinSep c (init ++ [q.dropLast]) := by
  induction init with
  | nil => simp [joinSep]
  | cons p ps ih =>
    rw [List.cons_append, joinSep_cons_ne c p (by simp),
      List.cons_append, joinSep_cons_ne c p (by simp),
      dropLast_append_ne p (List.cons_ne_nil _ _),
      dropLast_cons_ne c (joinSep_ne_nil c ps hq), ih]

theorem splitFirst_dropLast_some (c ch : Char) (hne : ch ≠ c) (l : List Char) :
    ∀ b : List Char, l.getLast? = some ch → (splitFirst c l).2 = some b →
      splitFirst c l.dropLast = ((splitFirst c l).1, some b.dropLast) := by
  induction l with
  | nil => intro b _ hs; simp [splitFirst] at hs
  | cons x xs ih =>
    intro b hl hs
    cases xs with
    | nil =>
      have hx : x = ch := by simpa [List.getLast?] using hl
      have hxc : ¬ (x = c) := fun h0 => hne (hx ▸ h0)
      simp [splitFirst, if_neg hxc] at hs
    | cons y t =>
      by_cases hx : x = c
      · subst hx
        simp only [splitFirst, if_pos rfl] at hs ⊢
        cases hs
        simp
      · have hl' : (y :: t).getLast? = some ch := by
          rw [← getLast?_cons_ne x (List.cons_ne_nil y t)]; exact hl
        simp only [splitFirst, if_neg hx] at hs ⊢
        have h2 := ih b hl' hs
        rw [h2]
        simp [splitFirst]

theorem keepParam_dropLast (p : List Char) {ch : Char}
    (hl : p.getLast? = some ch) (hne : ch ≠ '=') :
    keepParam p.dropLast = keepParam p := by
  rcases hsp : splitFirst '=' p with ⟨a, s⟩
  cases s with
  | none =>
    have hnm : '=' ∉ p := (splitFirst_snd_none_iff '=' p).mp (by rw [hsp])
    have hs' : (splitFirst '=' p.dropLast).2 = none :=
      (splitFirst_snd_none_iff '=' p.dropLast).mpr
        (fun hc => hnm (mem_of_mem_dropLast hc))
    rcases hsp' : splitFirst '=' p.dropLast with ⟨a2, s2⟩
    rw [hsp'] at hs'
    simp only at hs'
    subst hs'
    simp [keepParam, hsp, hsp']
  | some b =>
    have hd := splitFirst_dropLast_some '=' ch hne p b hl (by rw [hsp])
    rw [hsp] at hd
    simp only at hd
    simp [keepParam, hsp, hd]

theorem not_mem_takeWhile_ne (c : Char) (l : List Char) :
    c ∉ l.takeWhile (fun x => x ≠ c) := by
  induction l with
  | nil => simp [List.takeWhile]
  | cons x xs ih =>
    by_cases h : x = c
    · simp [List.takeWhile_cons, h]
    · simp only [List.takeWhile_cons, decide_eq_true_eq]  -- may need adjusting
      rw [if_pos (by simpa using h)]
      intro hc
      rcases List.mem_cons.mp hc with h1 | h2
      · exact h h1.symm
      · exact ih h2

theorem takeWhile_ne_eq_self (c : Char) (l : List Char) (h : c ∉ l) :
    l.takeWhile (fun x => x ≠ c) = l := by
  induction l with
  | nil => rfl
  | cons x xs ih =>
    have hx : x ≠ c := fun hc => h (hc ▸ List.mem_cons_self x xs)
    have hxs : c ∉ xs := fun hc => h (List.mem_cons_of_mem x hc)
    simp [List.takeWhile_cons, hx, ih hxs]
    exact fun a ha hac => hxs (hac ▸ ha)

theorem stripSlash_subset {l : List Char} {x : Char}
    (hx : x ∈ stripSlashChars l) : x ∈ l := by
  unfold stripSlashChars at hx
  split at hx
  · exact mem_of_mem_dropLast hx
  · exact hx

theorem queryParamsChars_of_no_query {l : List Char} (h : '?' ∉ l) :
    queryParamsChars l = [] := by
  simp [queryParamsChars, (splitFirst_snd_none_iff '?' l).mpr h]

theorem queryParamsChars_sep_append {a b : List Char} (h : '?' ∉ a) :
    queryParamsChars (a ++ '?' :: b) = splitAll '&' b := by
  simp [queryParamsChars, splitFirst_sep_append '?' a b h]

theorem filterQueryChars_of_no_query {l : List Char}
    (h : (splitFirst '?' l).2 = none) : filterQueryChars l = l := by
  unfold filterQueryChars
  rw [h]

theorem filterQueryChars_of_query {l Q : List Char}
    (h : (splitFirst '?' l).2 = some Q) :
    filterQueryChars l =
      if ((splitAll '&' Q).filter keepParam).isEmpty then (splitFirst '?' l).1
      else (splitFirst '?' l).1
        ++ '?' :: joinSep '&' ((splitAll '&' Q).filter keepParam) := by
  unfold filterQueryChars
  rw [h]

theorem splitAll_dropLast_keep {Q : List Char} (hQ : Q.getLast? = some '/')
    (hk : ∀ p ∈ splitAll '&' Q, keepParam p = true) :
    ∀ p ∈ splitAll '&' Q.dropLast, keepParam p = true := by
  have hPne : splitAll '&' Q ≠ [] := splitAll_ne_nil '&' Q
  have hdecomp : (splitAll '&' Q).dropLast ++ [(splitAll '&' Q).getLast hPne]
      = splitAll '&' Q := List.dropLast_append_getLast hPne
  have hQeq : Q = joinSep '&' (splitAll '&' Q) := (joinSep_splitAll '&' Q).symm
  have hQlast : ((splitAll '&' Q).getLast hPne).getLast? = some '/' := by
    apply joinSep_getLast '&' (splitAll '&' Q).dropLast _ (by decide)
    rw [hdecomp, ← hQeq]
    exact hQ
  have hqne : (splitAll '&' Q).getLast hPne ≠ [] := by
    intro h0
    rw [h0] at hQlast
    simp [List.getLast?] at hQlast
  have hdropQ : Q.dropLast
      = joinSep '&' ((splitAll '&' Q).dropLast
          ++ [((splitAll '&' Q).getLast hPne).dropLast]) := by
    conv_lhs => rw [hQeq, ← hdecomp]
    exact joinSep_dropLast '&' (splitAll '&' Q).dropLast _ hqne
  have hsplit : splitAll '&' Q.dropLast
      = (splitAll '&' Q).dropLast
          ++ [((splitAll '&' Q).getLast hPne).dropLast] := by
    rw [hdropQ]
    apply splitAll_joinSep
    · simp
    · intro p hp
      rcases List.mem_append.mp hp with h1 | h2
      · exact mem_splitAll_not_mem '&' (mem_of_mem_dropLast h1)
      · rw [List.mem_singleton] at h2
        subst h2
        exact fun hc => mem_splitAll_not_mem '&'
          (List.getLast_mem hPne) (mem_of_mem_dropLast hc)
  intro p hp
  rw [hsplit] at hp
  rcases List.mem_append.mp hp with h1 | h2
  · exact hk p (mem_of_mem_dropLast h1)
  · rw [List.mem_singleton] at h2
    subst h2
    rw [keepParam_dropLast _ hQlast (by decide)]
    exact hk _ (List.getLast_mem hPne)

theorem stripSlash_params_keep {X : List Char}
    (hX : ∀ p ∈ queryParamsChars X, keepParam p = true) :
    ∀ p ∈ queryParamsChars (stripSlashChars X), keepParam p = true := by
  unfold stripSlashChars
  split
  case isTrue hlast =>
    cases hs : (splitFirst '?' X).2 with
    | none =>
      have h1 : '?' ∉ X := (splitFirst_snd_none_iff '?' X).mp hs
      rw [queryParamsChars_of_no_query (fun hc => h1 (mem_of_mem_dropLast hc))]
      simp
    | some Q =>
      have hrec : X = (splitFirst '?' X).1 ++ '?' :: Q :=
        splitFirst_recover '?' X Q hs
      have hA : '?' ∉ (splitFirst '?' X).1 := splitFirst_fst_not_mem '?' X
      have hQne : Q ≠ [] := by
        intro h0
        subst h0
        rw [hrec, getLast?_append_ne _ (List.cons_ne_nil _ _)] at hlast
        simp [List.getLast?] at hlast
      have hQlast : Q.getLast? = some '/' := by
        rw [hrec, getLast?_append_ne _ (List.cons_ne_nil _ _),
          getLast?_cons_ne '?' hQne] at hlast
        exact hlast
      have hdrop : X.dropLast = (splitFirst '?' X).1 ++ '?' :: Q.dropLast := by
        conv_lhs => rw [hrec]
        rw [dropLast_append_ne _ (List.cons_ne_nil _ _),
          dropLast_cons_ne '?' hQne]
      rw [hdrop, queryParamsChars_sep_append hA]
      apply splitAll_dropLast_keep hQlast
      intro p hp
      apply hX
      rw [show queryParamsChars X = splitAll '&' Q by
        simp [queryParamsChars, hs]]
      exact hp
  case isFalse => exact hX

theorem filterQuery_params_keep (T : List Char) :
    ∀ p ∈ queryParamsChars (filterQueryChars T), keepParam p = true := by
  cases hs : (splitFirst '?' T).2 with
  | none =>
    rw [filterQueryChars_of_no_query hs,
      queryParamsChars_of_no_query ((splitFirst_snd_none_iff '?' T).mp hs)]
    simp
  | some Q =>
    rw [filterQueryChars_of_query hs]
    by_cases hk : ((splitAll '&' Q).filter keepParam).isEmpty
    · rw [if_pos hk,
        queryParamsChars_of_no_query (splitFirst_fst_not_mem '?' T)]
      simp
    · rw [if_neg hk,
        queryParamsChars_sep_append (splitFirst_fst_not_mem '?' T),
        splitAll_joinSep '&' _
          (by intro h0; rw [h0] at hk; simp [List.isEmpty] at hk)
          (fun p hp => mem_splitAll_not_mem '&' (List.mem_of_mem_filter hp))]
      intro p hp
      exact List.of_mem_filter hp

theorem normaliseChars_params_keep (l : List Char) :
    ∀ p ∈ queryParamsChars (normaliseChars l), keepParam p = true := by
  unfold normaliseChars
  exact stripSlash_params_keep (filterQuery_params_keep _)

theorem filterQuery_no_hash {T : List Char} (hT : '#' ∉ T) :
    '#' ∉ filterQueryChars T := by
  cases hs : (splitFirst '?' T).2 with
  | none => rw [filterQueryChars_of_no_query hs]; exact hT
  | some Q =>
    rw [filterQueryChars_of_query hs]
    have hbase : '#' ∉ (splitFirst '?' T).1 :=
      fun hc => hT (mem_splitFirst_fst '?' hc)
    have hrec := splitFirst_recover '?' T Q hs
    have hQsub : ∀ x, x ∈ Q → x ∈ T := by
      intro x hx
      rw [hrec]
      exact List.mem_append_right _ (List.mem_cons_of_mem _ hx)
    by_cases hk : ((splitAll '&' Q).filter keepParam).isEmpty
    · rw [if_pos hk]; exact hbase
    · rw [if_neg hk]
      intro hc
      rcases List.mem_append.mp hc with h1 | h2
      · exact hbase h1
      · rcases List.mem_cons.mp h2 with h1 | h2
        · exact absurd h1 (by decide)
        · rcases mem_joinSep '&' h2 with h3 | ⟨p, hp, hxp⟩
          · exact absurd h3 (by decide)
          · exact hT (hQsub '#' (mem_splitAll_mem '&'
              (List.mem_of_mem_filter hp) hxp))

theorem normaliseChars_no_hash (l : List Char) : '#' ∉ normaliseChars l := by
  unfold normaliseChars
  intro hc
  exact filterQuery_no_hash (not_mem_takeWhile_ne '#' l) (stripSlash_subset hc)

theorem normaliseChars_idem (l : List Char)
    (h : (normaliseChars l).getLast? ≠ some '/') :
    normaliseChars (normaliseChars l) = normaliseChars l := by
  have hhash : '#' ∉ normaliseChars l := normaliseChars_no_hash l
  have hkeep := normaliseChars_params_keep l
  show stripSlashChars (filterQueryChars
      ((normaliseChars l).takeWhile (fun c => c ≠ '#'))) = normaliseChars l
  rw [takeWhile_ne_eq_self '#' _ hhash]
  have hfq : filterQueryChars (normaliseChars l) = normaliseChars l := by
    cases hs : (splitFirst '?' (normaliseChars l)).2 with
    | none => exact filterQueryChars_of_no_query hs
    | some Q =>
      rw [filterQueryChars_of_query hs]
      have hQparams : queryParamsChars (normaliseChars l) = splitAll '&' Q := by
        simp [queryParamsChars, hs]
      have hfilter : (splitAll '&' Q).filter keepParam = splitAll '&' Q :=
        List.filter_eq_self.mpr (fun p hp => hkeep p (hQparams ▸ hp))
      rw [hfilter,
        if_neg (by
          intro h0
          exact splitAll_ne_nil '&' Q (by rwa [List.isEmpty_iff] at h0)),
        joinSep_splitAll]
      exact (splitFirst_recover '?' _ Q hs).symm
  rw [hfq]
  unfold stripSlashChars
  rw [if_neg h]

/-- **C6 counterexample.**  `normalise_url` is not idempotent: the code
removes only a single trailing slash (`text_utils.py`, lines 52–54), so a
URL ending in `//` normalises to one still ending in `/`, which a second
normalisation shortens again. -/
theorem normalise_url_not_idempotent_cex :
    normalise_url (normalise_url "http://example.com//")
      ≠ normalise_url "http://example.com//"
    ∧ normalise_url "http://example.com//" = "http://example.com/"
    ∧ normalise_url (normalise_url "http://example.com//")
        = "http://example.com" := by
  decide

/-- **C6 (amended).**  `normalise_url` removes every tracking parameter —
each query parameter surviving in `normalise_url url` has a name whose
lower-casing is not in `tracking_params`, regardless of its position among
the parameters — and normalising twice equals normalising once whenever the
once-normalised URL does not end in `/`.  The unconditional idempotence
asserted by the claim is false (`normalise_url_not_idempotent_cex`),
because the trailing-slash step removes only one `/`. -/
theorem normalise_url_removes_tracking_and_conditionally_idempotent
    (url : String) :
    (∀ p ∈ queryParamsOf (normalise_url url), keepParam p = true)
    ∧ ((normalise_url url).data.getLast? ≠ some '/' →
        normalise_url (normalise_url url) = normalise_url url) := by
  constructor
  · by_cases h : url = ""
    · subst h
      intro p hp
      have h0 : queryParamsOf (normalise_url "") = [] := rfl
      rw [h0] at hp
      simp at hp
    · intro p hp
      rw [normalise_url, if_neg h] at hp
      exact normaliseChars_params_keep url.data p hp
  · intro hslash
    by_cases h : url = ""
    · subst h
      rfl
    · have hout : normalise_url url = String.mk (normaliseChars url.data) := by
        rw [normalise_url, if_neg h]
      rw [hout] at hslash ⊢
      by_cases hS : String.mk (normaliseChars url.data) = ""
      · rw [hS]; simp [normalise_url]
      · rw [normalise_url, if_neg hS]
        exact congrArg String.mk (normaliseChars_idem url.data hslash)

/-- Witness for the amended C6 at a concrete URL carrying a tracking
parameter, an ordinary parameter and a fragment: the surviving parameter
`id=1` is not a tracking parameter, and normalising twice is the same as
normalising once. -/
theorem normalise_url_amended_witness :
    keepParam ("id=1".data) = true
    ∧ normalise_url (normalise_url
        "https://news.example.org/a?utm_source=x&id=1#frag")
      = normalise_url "https://news.example.org/a?utm_source=x&id=1#frag" :=
  ⟨(normalise_url_removes_tracking_and_conditionally_idempotent
      "https://news.example.org/a?utm_source=x&id=1#frag").1
      ("id=1".data) (by decide),
   (normalise_url_removes_tracking_and_conditionally_idempotent
      "https://news.example.org/a?utm_source=x&id=1#frag").2 (by decide)⟩

/-! ## C3 — the filters and cap of `_extract_results` -/

theorem should_skip_url_eq_false {url : String} {info : Option OrigInfo}
    {processed : List String}
    (h : should_skip_url url info processed = false) :
    processed.contains url = false
    ∧ (∀ i, info = some i → normalise_url url ≠ i.normalised_url)
    ∧ blacklisted_domains.any (fun d => containsStr d (lowerStr url))
        = false := by
  unfold should_skip_url at h
  split at h
  · exact absurd h (by simp)
  · split at h
    case isTrue hm =>
      exact absurd h (by simp)
    case isFalse hc hm =>
      refine ⟨by simpa using hc, ?_, h⟩
      intro i hi heq
      apply hm
      rw [hi]
      simp [heq]

theorem extract_results_aux_inv (info : Option OrigInfo) (od : Option String)
    (n : Nat) :
    ∀ (items : List NewsItem) (processed : List String)
      (results : List SearchResult),
    (∀ r ∈ results, r.url ∈ processed) →
    results.Pairwise (fun a b => a.url ≠ b.url) →
    (results.length < n ∨ results.length = 0) →
    (∀ r ∈ results, goodResult info od r) →
    (extract_results_aux info od n items processed results).length ≤ max n 1
    ∧ (extract_results_aux info od n items processed results).Pairwise
        (fun a b => a.url ≠ b.url)
    ∧ ∀ r ∈ extract_results_aux info od n items processed results,
        goodResult info od r := by
  intro items
  induction items with
  | nil =>
    intro processed results hmem hpw hlen hgood
    simp only [extract_results_aux]
    refine ⟨?_, hpw, hgood⟩
    rcases hlen with h | h <;> omega
  | cons item rest ih =>
    intro processed results hmem hpw hlen hgood
    simp only [extract_results_aux]
    split
    · exact ih processed results hmem hpw hlen hgood
    case h_2 link hfind =>
      generalize (if startsWithStr (link.href.getD "") "/url?"
            || containsStr "google.com/url" (link.href.getD "") then
          extract_url_from_redirect (link.href.getD "")
        else link.href.getD "") = url
      generalize (if item.heading.getD "" = "" then link.text.getD ""
        else item.heading.getD "") = title
      split
      · exact ih processed results hmem hpw hlen hgood
      case isFalse hhttp =>
        split
        · exact ih processed results hmem hpw hlen hgood
        case isFalse hskip =>
          split
          · exact ih processed results hmem hpw hlen hgood
          case isFalse hdm =>
            have hskip' := should_skip_url_eq_false (eq_false_of_ne_true hskip)
            have hgoodnew : goodResult info od ⟨url, title⟩ := by
              refine ⟨hskip'.2.2, hskip'.2.1, ?_⟩
              intro d hd hdne heq
              apply hdm
              rw [hd]
              simp [hdne, heq]
            have hne_old : ∀ r ∈ results, r.url ≠ url := by
              intro r hr heq
              have h1 : url ∈ processed := heq ▸ hmem r hr
              have h2 : processed.contains url = true := List.elem_iff.mpr h1
              rw [hskip'.1] at h2
              exact Bool.false_ne_true h2
            split
            case isTrue hge =>
              refine ⟨?_, ?_, ?_⟩
              · rw [List.length_append, List.length_singleton]
                rcases hlen with h | h <;> omega
              · rw [List.pairwise_append]
                exact ⟨hpw, List.pairwise_singleton _ _,
                  fun a ha b hb => (List.mem_singleton.mp hb) ▸ hne_old a ha⟩
              · intro r hr
                rcases List.mem_append.mp hr with h1 | h2
                · exact hgood r h1
                · rw [List.mem_singleton.mp h2]
                  exact hgoodnew
            case isFalse hlt =>
              apply ih
              · intro r hr
                rcases List.mem_append.mp hr with h1 | h2
                · exact List.mem_append_left _ (hmem r h1)
                · rw [List.mem_singleton.mp h2]
                  exact List.mem_append_right _ (List.mem_singleton.mpr rfl)
              · rw [List.pairwise_append]
                exact ⟨hpw, List.pairwise_singleton _ _,
                  fun a ha b hb => (List.mem_singleton.mp hb) ▸ hne_old a ha⟩
              · left
                rw [List.length_append, List.length_singleton] at hlt ⊢
                omega
              · intro r hr
                rcases List.mem_append.mp hr with h1 | h2
                · exact hgood r h1
                · rw [List.mem_singleton.mp h2]
                  exact hgoodnew

/-- **C3 counterexample.**  `_extract_results` records *raw* URLs in
`processed_urls` (line 446) while `_should_skip_url` tests raw membership
(line 501), so two candidate URLs differing only in a tracking parameter —
which normalise to the same URL — are both returned, refuting deduplication
by normalised URL; and because the cap is tested only *after* appending
(line 454), `num_results = 0` still yields one result, refuting "never
exceeds numResults". -/
theorem extract_results_not_deduped_by_normalised_url_cex :
    (extract_results
        [⟨[⟨true, some "https://site-a.com/story?utm_source=x", none⟩], some "A"⟩,
         ⟨[⟨true, some "https://site-a.com/story?utm_source=y", none⟩], some "B"⟩]
        "https://orig.example.com/story" 5).length = 2
    ∧ normalise_url "https://site-a.com/story?utm_source=x"
        = normalise_url "https://site-a.com/story?utm_source=y"
    ∧ "https://site-a.com/story?utm_source=x"
        ≠ "https://site-a.com/story?utm_source=y"
    ∧ (extract_results
        [⟨[⟨true, some "https://site-c.com/a", none⟩], some "C"⟩]
        "https://orig.example.com/story" 0).length = 1 := by
  decide

/-- **C3 (amended).**  Within one `_extract_results` call the returned list
is deduplicated by *raw* URL (pairwise-distinct `url` fields — not by
normalised URL, see `extract_results_not_deduped_by_normalised_url_cex`);
no returned URL contains a blacklisted domain in its lower-casing; when an
original URL is given, every returned result's normalised URL differs from
the original's normalised URL, and when the original's extracted domain is
nonempty every returned result's domain differs from it; and the list's
length is at most `max num_results 1` (not `num_results`: the cap is
checked only after an append). -/
theorem extract_results_filters_and_caps (items : List NewsItem)
    (original_url : String) (n : Nat) :
    (extract_results items original_url n).length ≤ max n 1
    ∧ (extract_results items original_url n).Pairwise
        (fun a b => a.url ≠ b.url)
    ∧ (∀ r ∈ extract_results items original_url n,
        blacklisted_domains.any (fun d => containsStr d (lowerStr r.url))
          = false)
    ∧ (original_url ≠ "" →
        ∀ r ∈ extract_results items original_url n,
          normalise_url r.url ≠ normalise_url original_url)
    ∧ (extract_domain original_url ≠ "" →
        ∀ r ∈ extract_results items original_url n,
          extract_domain r.url ≠ extract_domain original_url) := by
  have key := extract_results_aux_inv (get_original_url_info original_url)
    ((get_original_url_info original_url).map (fun i => i.domain)) n items [] []
    (by simp) (by simp) (by simp) (by simp)
  have hunf : extract_results items original_url n
      = extract_results_aux (get_original_url_info original_url)
        ((get_original_url_info original_url).map (fun i => i.domain))
        n items [] [] := by
    simp only [extract_results]
  rw [hunf]
  refine ⟨key.1, key.2.1, fun r hr => (key.2.2 r hr).1, ?_, ?_⟩
  · intro hne r hr
    have hinfo : get_original_url_info original_url
        = some ⟨extract_domain original_url, normalise_url original_url⟩ := by
      rw [get_original_url_info, if_neg hne]
    exact (key.2.2 r hr).2.1 _ hinfo
  · intro hd r hr
    have hne : original_url ≠ "" := by
      intro h0
      apply hd
      rw [h0]
      rfl
    have hod : (get_original_url_info original_url).map (fun i => i.domain)
        = some (extract_domain original_url) := by
      rw [get_original_url_info, if_neg hne]
      rfl
    exact (key.2.2 r hr).2.2 _ hod hd

/-- Witness for the amended C3 at a concrete one-item results page and a
concrete original article. -/
theorem extract_results_filters_and_caps_witness :
    (extract_results
        [⟨[⟨true, some "https://site-b.com/a", none⟩], some "B"⟩]
        "https://orig.example.com/story" 3).length ≤ max 3 1
    ∧ blacklisted_domains.any
        (fun d => containsStr d (lowerStr "https://site-b.com/a")) = false
    ∧ normalise_url "https://site-b.com/a"
        ≠ normalise_url "https://orig.example.com/story"
    ∧ extract_domain "https://site-b.com/a"
        ≠ extract_domain "https://orig.example.com/story" := by
  have key := extract_results_filters_and_caps
    [⟨[⟨true, some "https://site-b.com/a", none⟩], some "B"⟩]
    "https://orig.example.com/story" 3
  exact ⟨key.1,
    (key.2.2.1 ⟨"https://site-b.com/a", "B"⟩ (by decide)),
    (key.2.2.2.1 (by decide) ⟨"https://site-b.com/a", "B"⟩ (by decide)),
    (key.2.2.2.2 (by decide) ⟨"https://site-b.com/a", "B"⟩ (by decide))⟩

end TruthTracer
